import Mathlib

/-!
Verification model of the `pubsub` library (package `pubsub`, files
`pubsub.go` and `internal/node/node.go`).

The Go code is embedded shallowly:

* `internal/node.Node` holds three Go maps (`children`, `subscriptions`,
  `shards`).  Go maps are modelled as association lists (`alookup`,
  `aupdate`, `aerase`): lookup returns the first binding, update replaces
  the first binding in place (or appends a new one), erase removes the
  first binding.  Key order of a Go map is unspecified; the association
  list is a determinization that preserves the per-key contents exactly.
  Bucket slices (`[]SubscriptionEnvelope`) keep their real Go order.
* `*node.Node` pointers: within one registry the trie is a real tree
  (`AddChild` only ever links freshly allocated nodes), so a node pointer
  reachable from the root is in bijection with its path from the root.
  The value model below exploits this: a "pointer" is the node value
  itself, and the per-publish visited set `map[*node.Node]bool` is keyed
  by the node's root path.  A second, heap-based model with explicit
  addresses is given further down for the frame property of `Publish`,
  where pointer identity is kept literal.
* `nil` node pointers are `Option Node` / absent lookups.  Where the Go
  code would dereference a nil pointer (a runtime panic), the model
  returns `none` from an `Option`-valued function.
* go's `interface{}` datum, the subscriber objects and the 63-bit ids are
  opaque to the engine; they are modelled as `Nat`.
-/

namespace PubSub

/-- Path labels and shard ids are Go strings. -/
abbrev Label := String

/-- A published datum (`interface{}`); opaque to the engine. -/
abbrev Datum := Nat

/-- Names a subscriber object (a `Subscription` in the Go code); the engine
never inspects it beyond calling `Write`. -/
abbrev Subscriber := Nat

/-- A subscription id (`int64` drawn from `rand.Int63()`). -/
abbrev Id := Nat

/-- `node.SubscriptionEnvelope`: a subscriber together with its engine
assigned id. -/
structure Envelope where
  sub : Subscriber
  id : Id
deriving DecidableEq, Repr

/-- Association-list lookup: the first binding of `k`, modelling Go map
indexing `m[k]`. -/
def alookup {κ ν : Type} [DecidableEq κ] : List (κ × ν) → κ → Option ν
  | [], _ => none
  | b :: bs, k => if b.1 = k then some b.2 else alookup bs k

/-- Association-list update, modelling Go map assignment `m[k] = v`:
replaces the first binding of `k`, or appends a new binding. -/
def aupdate {κ ν : Type} [DecidableEq κ] : List (κ × ν) → κ → ν → List (κ × ν)
  | [], k, v => [(k, v)]
  | b :: bs, k, v => if b.1 = k then (k, v) :: bs else b :: aupdate bs k v

/-- Association-list erase, modelling Go `delete(m, k)`: removes the first
binding of `k`. -/
def aerase {κ ν : Type} [DecidableEq κ] : List (κ × ν) → κ → List (κ × ν)
  | [], _ => []
  | b :: bs, k => if b.1 = k then bs else b :: aerase bs k

section AssocLemmas

variable {κ ν : Type} [DecidableEq κ] {l : List (κ × ν)} {k q : κ} {v w : ν}

theorem mem_of_alookup (h : alookup l k = some v) : (k, v) ∈ l := by
  induction l with
  | nil => simp [alookup] at h
  | cons b bs ih =>
    simp only [alookup] at h
    by_cases hb : b.1 = k
    · simp only [hb, if_pos rfl, Option.some.injEq] at h
      have : b = (k, v) := by cases b; simp_all
      rw [this]
      exact List.mem_cons_self _ _
    · rw [if_neg hb] at h
      exact List.mem_cons_of_mem _ (ih h)

theorem alookup_aupdate_self (l : List (κ × ν)) (k : κ) (v : ν) :
    alookup (aupdate l k v) k = some v := by
  induction l with
  | nil => simp [alookup, aupdate]
  | cons b bs ih =>
    by_cases hb : b.1 = k
    · simp [aupdate, hb, alookup]
    · simp [aupdate, hb, alookup, ih]

theorem aupdate_of_alookup (h : alookup l k = some v) : aupdate l k v = l := by
  induction l with
  | nil => simp [alookup] at h
  | cons b bs ih =>
    simp only [alookup] at h
    by_cases hb : b.1 = k
    · simp only [hb, if_pos rfl, Option.some.injEq] at h
      have : b = (k, v) := by cases b; simp_all
      simp [aupdate, hb, this]
    · rw [if_neg hb] at h
      simp [aupdate, hb, ih h]

theorem aupdate_of_alookup_none (h : alookup l k = none) (v : ν) :
    aupdate l k v = l ++ [(k, v)] := by
  induction l with
  | nil => simp [aupdate]
  | cons b bs ih =>
    simp only [alookup] at h
    by_cases hb : b.1 = k
    · simp [hb] at h
    · rw [if_neg hb] at h
      simp [aupdate, hb, ih h]

theorem alookup_append_last (h : alookup l k = none) (v : ν) :
    alookup (l ++ [(k, v)]) k = some v := by
  induction l with
  | nil => simp [alookup]
  | cons b bs ih =>
    simp only [alookup] at h ⊢
    by_cases hb : b.1 = k
    · simp [hb] at h
    · rw [if_neg hb] at h ⊢
      exact ih h

theorem aerase_append_last (h : alookup l k = none) (v : ν) :
    aerase (l ++ [(k, v)]) k = l := by
  induction l with
  | nil => simp [aerase]
  | cons b bs ih =>
    simp only [alookup] at h
    by_cases hb : b.1 = k
    · simp [hb] at h
    · rw [if_neg hb] at h
      simp [aerase, hb, ih h]

theorem mem_aupdate {b : κ × ν} (h : b ∈ aupdate l q w) : b ∈ l ∨ b = (q, w) := by
  induction l with
  | nil => simp [aupdate] at h; right; exact h
  | cons c cs ih =>
    simp only [aupdate] at h
    by_cases hc : c.1 = q
    · rw [if_pos hc] at h
      rcases List.mem_cons.mp h with h1 | h1
      · right; exact h1
      · left; exact List.mem_cons_of_mem _ h1
    · rw [if_neg hc] at h
      rcases List.mem_cons.mp h with h1 | h1
      · left; rw [h1]; exact List.mem_cons_self _ _
      · rcases ih h1 with h2 | h2
        · left; exact List.mem_cons_of_mem _ h2
        · right; exact h2

theorem mem_aerase {b : κ × ν} (h : b ∈ aerase l q) : b ∈ l := by
  induction l with
  | nil => simp [aerase] at h
  | cons c cs ih =>
    simp only [aerase] at h
    by_cases hc : c.1 = q
    · rw [if_pos hc] at h
      exact List.mem_cons_of_mem _ h
    · rw [if_neg hc] at h
      rcases List.mem_cons.mp h with h1 | h1
      · rw [h1]; exact List.mem_cons_self _ _
      · exact List.mem_cons_of_mem _ (ih h1)

theorem aerase_aupdate (l : List (κ × ν)) (q : κ) (v : ν) :
    aerase (aupdate l q v) q = aerase l q := by
  induction l with
  | nil => simp [aupdate, aerase]
  | cons c cs ih =>
    by_cases hc : c.1 = q
    · simp [aupdate, aerase, hc]
    · simp [aupdate, aerase, hc, ih]

theorem aupdate_aupdate (l : List (κ × ν)) (q : κ) (v w : ν) :
    aupdate (aupdate l q v) q w = aupdate l q w := by
  induction l with
  | nil => simp [aupdate]
  | cons c cs ih =>
    by_cases hc : c.1 = q
    · simp [aupdate, hc]
    · simp [aupdate, hc, ih]

theorem alookup_aupdate_ne (h : q ≠ k) (l : List (κ × ν)) (v : ν) :
    alookup (aupdate l q v) k = alookup l k := by
  induction l with
  | nil => simp [aupdate, alookup, h]
  | cons c cs ih =>
    by_cases hc : c.1 = q
    · simp [aupdate, hc, alookup, h, ih]
    · simp only [aupdate, if_neg hc, alookup]
      by_cases hck : c.1 = k
      · simp [hck]
      · simp [hck, ih]

end AssocLemmas

/-- `node.Node`: children by label, subscriptions bucketed by shard id
(each bucket in insertion order), and the id-to-shard index. -/
inductive Node where
  | mk (children : List (Label × Node))
       (subscriptions : List (Label × List Envelope))
       (shards : List (Id × Label))

/-- The `children` field. -/
def Node.children : Node → List (Label × Node)
  | .mk c _ _ => c

/-- The `subscriptions` field. -/
def Node.subscriptions : Node → List (Label × List Envelope)
  | .mk _ s _ => s

/-- The `shards` field. -/
def Node.shards : Node → List (Id × Label)
  | .mk _ _ sh => sh

@[simp] theorem Node.children_mk (c s sh) : (Node.mk c s sh).children = c := rfl

@[simp] theorem Node.subscriptions_mk (c s sh) : (Node.mk c s sh).subscriptions = s := rfl

@[simp] theorem Node.shards_mk (c s sh) : (Node.mk c s sh).shards = sh := rfl

theorem Node.eta (n : Node) : Node.mk n.children n.subscriptions n.shards = n := by
  cases n; rfl

/-- `node.New()`: a node with three empty maps. -/
def Node.new : Node := .mk [] [] []

/-- `Node.FetchChild` on a non-nil receiver: lookup only, `nil` when the
label is unknown. -/
def Node.FetchChild (n : Node) (key : Label) : Option Node :=
  alookup n.children key

/-- `Node.ChildLen`: `len(n.children)`.  NOTE: the Go method has no
`n == nil` guard (unlike every other method of `node.go`); on a nil
receiver it dereferences the nil pointer and panics.  This total version
is therefore only the non-nil behaviour; see `ChildLenO`. -/
def Node.ChildLen (n : Node) : Nat :=
  n.children.length

/-- `Node.SubscriptionLen`: `len(n.shards)`.  Like `ChildLen` the Go
method has no nil guard; this is the non-nil behaviour. -/
def Node.SubscriptionLen (n : Node) : Nat :=
  n.shards.length

/-- `Node.DeleteChild` on a non-nil receiver: `delete(n.children, key)`. -/
def Node.DeleteChild (n : Node) (key : Label) : Node :=
  .mk (aerase n.children key) n.subscriptions n.shards

/-- Overwrite the binding of `key` in `n.children`.  This is how the Go
code's in-place mutation of a child through its pointer is rendered in
the value model: the parent's map keeps pointing at the (now updated)
child. -/
def Node.setChild (n : Node) (key : Label) (c : Node) : Node :=
  .mk (aupdate n.children key c) n.subscriptions n.shards

/-- `Node.AddSubscription` on a non-nil receiver.  The Go code draws
`id := rand.Int63()`; the draw is passed in as `rv` (the model treats the
generator as an external oracle).  It records `n.shards[id] = shardID`
and appends the envelope to the bucket `n.subscriptions[shardID]`. -/
def Node.AddSubscription (n : Node) (s : Subscriber) (shardID : Label) (rv : Id) : Node :=
  .mk n.children
    (aupdate n.subscriptions shardID ((alookup n.subscriptions shardID).getD [] ++ [⟨s, rv⟩]))
    (aupdate n.shards rv shardID)

/-- Remove the first envelope carrying `id` from a bucket.  The Go loop in
`DeleteSubscription` re-slices with `append(s[:i], s[i+1:]...)`; for a
bucket in which `id` occurs at most once (the only situation the engine
produces, ids being per-node map keys in `shards`) its net effect is
exactly the removal of that single envelope. -/
def removeFirstById : List Envelope → Id → List Envelope
  | [], _ => []
  | e :: es, i => if e.id = i then es else e :: removeFirstById es i

/-- `Node.DeleteSubscription` on a non-nil receiver: looks the id up in
`shards` (missing id: silent no-op), removes it from `shards`, removes
the envelope from its bucket, and drops the bucket entry if the bucket
became empty. -/
def Node.DeleteSubscription (n : Node) (i : Id) : Node :=
  match alookup n.shards i with
  | none => n
  | some shardID =>
    let s := (alookup n.subscriptions shardID).getD []
    let s' := removeFirstById s i
    .mk n.children
      (if s'.isEmpty then aerase n.subscriptions shardID
       else aupdate n.subscriptions shardID s')
      (aerase n.shards i)

/-- A `TreeTraverser` (pubsub.go): from the datum and the current path it
yields the `Paths` object.  `Paths.At` is iterated from index 0 until the
first not-ok answer, so a `Paths` denotes a finite list of
`(label, next traverser or nil)` pairs; the three adapters shipped with
the library (`FlatPaths`, `PathsWithTraverser`, `PathAndTraversers`) are
all of exactly this shape. -/
inductive Trav where
  | mk (f : Datum → List Label → List (Label × Option Trav))

/-- Invoke a traverser (`TreeTraverser.Traverse` plus the `Paths.At`
iteration). -/
def Trav.run : Trav → Datum → List Label → List (Label × Option Trav)
  | .mk f => f

/-- One observable delivery action of a publish.  `write l e` records that
`e.Subscription.Write(d)` was invoked for the envelope `e` sitting at the
node with root path `l` (from the shard-id-`""` loop).  `shard l sid es`
records the single call `s.sa.Write(d, subs)` handed the full bucket `es`
of shard id `sid` at that node.  The path tag identifies the emitting
node; the Go calls do not carry it, it is specification instrumentation. -/
inductive Event where
  | write (path : List Label) (e : Envelope)
  | shard (path : List Label) (sid : Label) (es : List Envelope)
deriving DecidableEq, Repr

/-- The path component of an event. -/
def Event.path : Event → List Label
  | .write l _ => l
  | .shard l _ _ => l

/-- The emission block of `traversePublish` at an unvisited node: the body
of `n.ForEachSubscription(...)` in `Publish`'s traversal.  For each bucket,
shard id `""` writes to every envelope in bucket order; a non-empty shard
id produces the one dispatcher call carrying the bucket.  (Go iterates the
`subscriptions` map in unspecified order; the model fixes the association
list's order, which no claim depends on across buckets.) -/
def emitNode (l : List Label) (n : Node) : List Event :=
  n.subscriptions.flatMap
    (fun b => if b.1 = "" then b.2.map (Event.write l) else [Event.shard l b.1 b.2])

theorem sizeOf_FetchChild {n c : Node} {key : Label} (h : n.FetchChild key = some c) :
    sizeOf c < sizeOf n := by
  cases n with
  | mk cs subs sh =>
    simp only [Node.FetchChild, Node.children] at h
    have hm : (key, c) ∈ cs := mem_of_alookup h
    have h1 : sizeOf (key, c) < sizeOf cs := List.sizeOf_lt_of_mem hm
    have h2 : sizeOf c < sizeOf (key, c) := by simp
    simp only [Node.mk.sizeOf_spec]
    omega

mutual

/-- `(*PubSub).traversePublish` for a non-nil current node `n`, which the
code guarantees sits at root path `l`.  Returns the emitted events and the
updated visited set.  The Go visited set is `map[*node.Node]bool`; since
`AddChild` only ever links freshly allocated nodes, the reachable trie is
a tree and a node pointer is in bijection with its root path, so the model
keys the set by path.  The nil-receiver early return of the Go function is
rendered at the recursive call site (`traversePublishPaths`), and `Publish`
always starts from the non-nil root.  The Go parameters `d` and `next` are
both always the published datum, so the model carries one `d`. -/
def traversePublish (d : Datum) (a : Trav) (n : Node) (l : List Label)
    (h : List (List Label)) : List Event × List (List Label) :=
  let eh := if l ∈ h then (([] : List Event), h) else (emitNode l n, l :: h)
  let r := traversePublishPaths d a n l (a.run d l) eh.2
  (eh.1 ++ r.1, r.2)
termination_by (sizeOf n, 1, 0)
decreasing_by
  · exact Prod.Lex.right _ (Prod.Lex.left _ _ (by omega))

/-- The `for i := 0; ; i++ { paths.At(i) ... }` loop of `traversePublish`:
the remaining `(label, next traverser)` pairs are `ps`.  A `nil`
`nextTraverser` keeps the current traverser; the child under `label` is
fetched and recursed into, a nil child returning at once (the `n == nil`
guard of `traversePublish`). -/
def traversePublishPaths (d : Datum) (a : Trav) (n : Node) (l : List Label) :
    List (Label × Option Trav) → List (List Label) → List Event × List (List Label)
  | [], h => ([], h)
  | (lbl, ot) :: rest, h =>
    let r := match hc : n.FetchChild lbl with
             | none => (([] : List Event), h)
             | some c => traversePublish d (ot.getD a) c (l ++ [lbl]) h
    let r2 := traversePublishPaths d a n l rest r.2
    (r.1 ++ r2.1, r2.2)
termination_by ps _ => (sizeOf n, 0, ps.length)
decreasing_by
  · exact Prod.Lex.left _ _ (sizeOf_FetchChild hc)
  · exact Prod.Lex.right _ (Prod.Lex.right _ (by simp [List.length_cons]))

end

/-- `(*PubSub).Publish`: acquires the read lock (irrelevant to the pure
model) and runs the traversal from the root with the empty path and a
fresh visited set. -/
def Publish (t : Node) (d : Datum) (a : Trav) : List Event × List (List Label) :=
  traversePublish d a t [] []

/-- The trie walk of `(*PubSub).Subscribe`: starting at the root it calls
`AddChild` for every label of the path (returning the existing child or
linking a fresh empty node) and finally `AddSubscription` with the
configured shard id; `rv` is the `rand.Int63()` draw consumed by
`AddSubscription`. -/
def Subscribe (n : Node) (path : List Label) (s : Subscriber) (shardID : Label)
    (rv : Id) : Node :=
  match path with
  | [] => n.AddSubscription s shardID rv
  | q :: rest =>
    let c := (n.FetchChild q).getD Node.new
    n.setChild q (Subscribe c rest s shardID rv)

/-- `(*PubSub).cleanupSubscriptionTree`, the body of the unsubscribe
handle.  The result is `none` when the Go code panics: if a path label has
no child, `FetchChild` returns nil, the recursive call on the nil child
runs through its nil guards as a no-op, and then `child.ChildLen()`
dereferences the nil pointer (`Node.ChildLen` has no nil guard) and the
program crashes with no further mutation — `none` models that crash.
Otherwise, the child updated by the recursive call replaces the old one
(in Go the mutation happens in place through the pointer), and is unlinked
when it ends up with zero children and zero subscriptions. -/
def cleanupSubscriptionTree (n : Node) (i : Id) : List Label → Option Node
  | [] => some (n.DeleteSubscription i)
  | q :: rest =>
    match n.FetchChild q with
    | none => none
    | some child =>
      match cleanupSubscriptionTree child i rest with
      | none => none
      | some child' =>
        let n' := n.setChild q child'
        some (if child'.ChildLen = 0 ∧ child'.SubscriptionLen = 0
              then n'.DeleteChild q else n')

/-- `RandSharding.Write`: draws `idx := r.Rand.Intn(len(subscriptions))`
and writes to `subscriptions[idx]`.  The generator is an oracle `rv`; a
uniform draw below `len` is `rv % len`.  `rand.Intn` panics when its
argument is not positive, which for the empty list is modelled by the
`none` that `List.get?` returns (`rv % 0 = rv` is out of range). -/
def RandShardingWrite (rv : Nat) (subscriptions : List Envelope) : Option Envelope :=
  subscriptions.get? (rv % subscriptions.length)

/-! ### Every path/node pair of a trie

`allPathNodes t pre` lists `(pre ++ p, node at p)` for every node of `t`;
the structural invariants of the spec are phrased as a `Bool`-valued scan
over this list. -/

theorem sizeOf_children_mem {n : Node} {qc : Label × Node} (h : qc ∈ n.children) :
    sizeOf qc.2 < sizeOf n := by
  cases n with
  | mk cs subs sh =>
    have h1 : sizeOf qc < sizeOf cs := List.sizeOf_lt_of_mem h
    have h2 : sizeOf qc.2 < sizeOf qc := by
      rcases qc with ⟨x, y⟩; simp
    simp only [Node.mk.sizeOf_spec]
    omega

/-- All `(root path, node)` pairs of the subtree `t`, the root of `t`
itself sitting at `pre`. -/
def allPathNodes : Node → List Label → List (List Label × Node)
  | .mk cs subs sh, pre =>
    (pre, .mk cs subs sh) :: cs.attach.flatMap (fun qc => allPathNodes qc.1.2 (pre ++ [qc.1.1]))
termination_by n _ => sizeOf n
decreasing_by exact sizeOf_children_mem qc.2

/-- The node of `t` at root path `p` (`nil` when the path leaves the
trie), following `FetchChild`. -/
def nodeAt (t : Node) : List Label → Option Node
  | [] => some t
  | q :: rest =>
    match t.FetchChild q with
    | none => none
    | some c => nodeAt c rest

/-- The emission block of the node at `p`, empty for an absent node. -/
def emitAt (t : Node) (p : List Label) : List Event :=
  match nodeAt t p with
  | some m => emitNode p m
  | none => []

/-- `P` holds at every node of the trie `t` (its root included). -/
def allNodesB (P : Node → Bool) (t : Node) : Bool :=
  (allPathNodes t []).all (fun pm => P pm.2)

/-- A node that the pruning of §4.3.1 would keep: it has a child or a
subscription (the Go check is `ChildLen() == 0 && SubscriptionLen() == 0`). -/
def nonEmptyB (n : Node) : Bool :=
  !(n.ChildLen = 0 ∧ n.SubscriptionLen = 0)

/-- Every node of the subtree `c` (its root included) is non-empty. -/
def allNonEmptyB (c : Node) : Bool :=
  allNodesB nonEmptyB c

/-- Spec invariant 4 as checked after pruning: every node reachable from
the root, except possibly the root itself, has a child or a
subscription. -/
def prunedB (t : Node) : Bool :=
  t.children.all (fun qc => allNonEmptyB qc.2)

/-- No bucket of node `n` is empty. -/
def nodeBucketsNE (n : Node) : Bool :=
  n.subscriptions.all (fun b => !b.2.isEmpty)

/-- Spec invariant 3: no node of the trie holds an empty bucket. -/
def bucketsNEB (t : Node) : Bool :=
  allNodesB nodeBucketsNE t

/-- The id `i` is not at node `n`: not in its `shards` index and on no
envelope of its buckets. -/
def nodeFreshId (i : Id) (n : Node) : Bool :=
  (alookup n.shards i).isNone &&
    n.subscriptions.all (fun b => b.2.all (fun e => e.id != i))

/-- The id `i` is nowhere in the trie. -/
def freshIdB (t : Node) (i : Id) : Bool :=
  allNodesB (nodeFreshId i) t

/-- How many envelopes of node `n` carry id `i`. -/
def idCountNode (n : Node) (i : Id) : Nat :=
  (n.subscriptions.map (fun b => b.2.countP (fun e => e.id == i))).sum

/-- How many envelopes of the whole trie carry id `i`. -/
def idCountTree (t : Node) (i : Id) : Nat :=
  ((allPathNodes t []).map (fun pm => idCountNode pm.2 i)).sum

/-- How many times the event `e` delivers (or, for a dispatcher call, can
deliver) to the subscription with id `i`: a direct write counts one when
it is to that envelope; a dispatcher call counts the envelopes with that
id it was handed, since the dispatcher writes to one element of the
list. -/
def touches (i : Id) : Event → Nat
  | .write _ e => if e.id == i then 1 else 0
  | .shard _ _ es => es.countP (fun e => e.id == i)

/-- Total number of (potential) deliveries to id `i` in an event list. -/
def deliveryCount (ev : List Event) (i : Id) : Nat :=
  (ev.map (touches i)).sum

/-! ### Structure of a publish traversal

`travInv h₀ h₁ ev` isolates what one (recursive) traversal invocation
contributes: a list `E` of root paths of the nodes it emitted to, in
emission order — freshly visited, mutually distinct, all present in the
trie — prepended (reversed) onto the visited set, the event stream being
the concatenation of those nodes' emission blocks. -/

def travInv (t : Node) (h₀ h₁ : List (List Label)) (ev : List Event) : Prop :=
  ∃ E : List (List Label),
    h₁ = E.reverse ++ h₀ ∧ E.Nodup ∧
    (∀ p ∈ E, p ∉ h₀ ∧ (nodeAt t p).isSome) ∧
    ev = E.flatMap (emitAt t)

/-! Unfolding equations of the traversal, by the case analyses the Go
control flow performs. -/

theorem traversePublish_of_mem {d : Datum} {a : Trav} {n : Node} {l : List Label}
    {h : List (List Label)} (hmem : l ∈ h) :
    traversePublish d a n l h = traversePublishPaths d a n l (a.run d l) h := by
  rw [traversePublish]
  simp [hmem]

theorem traversePublish_of_not_mem {d : Datum} {a : Trav} {n : Node} {l : List Label}
    {h : List (List Label)} (hmem : l ∉ h) :
    traversePublish d a n l h =
      (emitNode l n ++ (traversePublishPaths d a n l (a.run d l) (l :: h)).1,
       (traversePublishPaths d a n l (a.run d l) (l :: h)).2) := by
  rw [traversePublish]
  simp [hmem]

theorem traversePublishPaths_nil (d : Datum) (a : Trav) (n : Node) (l : List Label)
    (h : List (List Label)) : traversePublishPaths d a n l [] h = ([], h) := by
  rw [traversePublishPaths]

theorem traversePublishPaths_cons_none {d : Datum} {a : Trav} {n : Node} {l : List Label}
    {lbl : Label} {ot : Option Trav} {rest : List (Label × Option Trav)}
    {h : List (List Label)} (hc : n.FetchChild lbl = none) :
    traversePublishPaths d a n l ((lbl, ot) :: rest) h =
      traversePublishPaths d a n l rest h := by
  rw [traversePublishPaths]
  split
  · cases (traversePublishPaths d a n l rest h); rfl
  · next c heq => rw [hc] at heq; exact absurd heq (by simp)

theorem traversePublishPaths_cons_some {d : Datum} {a : Trav} {n c : Node} {l : List Label}
    {lbl : Label} {ot : Option Trav} {rest : List (Label × Option Trav)}
    {h : List (List Label)} (hc : n.FetchChild lbl = some c) :
    traversePublishPaths d a n l ((lbl, ot) :: rest) h =
      ((traversePublish d (ot.getD a) c (l ++ [lbl]) h).1 ++
        (traversePublishPaths d a n l rest
          (traversePublish d (ot.getD a) c (l ++ [lbl]) h).2).1,
       (traversePublishPaths d a n l rest
          (traversePublish d (ot.getD a) c (l ++ [lbl]) h).2).2) := by
  rw [traversePublishPaths]
  split
  · next heq => rw [hc] at heq; exact absurd heq (by simp)
  · next c' heq =>
    rw [hc] at heq
    have : c' = c := (Option.some.inj heq).symm
    subst this
    rfl

theorem one_le_sizeOf_node (n : Node) : 1 ≤ sizeOf n := by
  cases n; simp only [Node.mk.sizeOf_spec]; omega

theorem nodeAt_append {t n c : Node} {l : List Label} {q : Label}
    (hn : nodeAt t l = some n) (hc : n.FetchChild q = some c) :
    nodeAt t (l ++ [q]) = some c := by
  induction l generalizing t with
  | nil =>
    simp only [nodeAt, Option.some.injEq] at hn
    subst hn
    simp [nodeAt, hc]
  | cons p rest ih =>
    simp only [nodeAt] at hn ⊢
    cases hf : t.FetchChild p with
    | none => rw [hf] at hn; exact absurd hn (by simp)
    | some c' =>
      rw [hf] at hn
      exact ih hn

theorem emitAt_of_nodeAt {t n : Node} {l : List Label} (hn : nodeAt t l = some n) :
    emitAt t l = emitNode l n := by
  simp [emitAt, hn]

theorem traversePublish_travInv (t : Node) (d : Datum) : ∀ k : Nat,
    (∀ (n : Node) (a : Trav) (l : List Label) (h : List (List Label)),
      sizeOf n ≤ k → nodeAt t l = some n →
      travInv t h (traversePublish d a n l h).2 (traversePublish d a n l h).1) ∧
    (∀ (n : Node) (a : Trav) (l : List Label) (ps : List (Label × Option Trav))
      (h : List (List Label)),
      sizeOf n ≤ k → nodeAt t l = some n →
      travInv t h (traversePublishPaths d a n l ps h).2
        (traversePublishPaths d a n l ps h).1) := by
  intro k
  induction k with
  | zero =>
    constructor
    · intro n _ _ _ hk _
      exact absurd hk (by have := one_le_sizeOf_node n; omega)
    · intro n _ _ _ _ hk _
      exact absurd hk (by have := one_le_sizeOf_node n; omega)
  | succ k ih =>
    have hQL : ∀ (n : Node) (a : Trav) (l : List Label)
        (ps : List (Label × Option Trav)) (h : List (List Label)),
        sizeOf n ≤ k + 1 → nodeAt t l = some n →
        travInv t h (traversePublishPaths d a n l ps h).2
          (traversePublishPaths d a n l ps h).1 := by
      intro n a l ps
      induction ps with
      | nil =>
        intro h _ _
        exact ⟨[], by simp [traversePublishPaths_nil]⟩
      | cons pr rest ihps =>
        intro h hk hAt
        obtain ⟨lbl, ot⟩ := pr
        cases hc : n.FetchChild lbl with
        | none =>
          rw [traversePublishPaths_cons_none hc]
          exact ihps h hk hAt
        | some c =>
          rw [traversePublishPaths_cons_some hc]
          have hcs : sizeOf c ≤ k := by
            have := sizeOf_FetchChild hc
            omega
          have hcAt : nodeAt t (l ++ [lbl]) = some c := nodeAt_append hAt hc
          obtain ⟨E₁, he₁, hnd₁, hE₁, hev₁⟩ :=
            ih.1 c (ot.getD a) (l ++ [lbl]) h hcs hcAt
          obtain ⟨E₂, he₂, hnd₂, hE₂, hev₂⟩ :=
            ihps ((traversePublish d (ot.getD a) c (l ++ [lbl]) h).2) hk hAt
          rw [he₁] at hE₂
          refine ⟨E₁ ++ E₂, ?_, ?_, ?_, ?_⟩
          · simp only
            rw [he₂, he₁, List.reverse_append, List.append_assoc]
          · rw [List.nodup_append]
            refine ⟨hnd₁, hnd₂, ?_⟩
            intro p hp₁ hp₂
            exact (hE₂ p hp₂).1 (List.mem_append_left _ (by simpa using hp₁))
          · intro p hp
            rcases List.mem_append.mp hp with hp | hp
            · exact hE₁ p hp
            · have h1 := hE₂ p hp
              exact ⟨fun hm => h1.1 (List.mem_append_right _ hm), h1.2⟩
          · simp only
            rw [List.flatMap_append, ← hev₁, ← hev₂]
    refine ⟨?_, hQL⟩
    intro n a l h hk hAt
    by_cases hmem : l ∈ h
    · rw [traversePublish_of_mem hmem]
      exact hQL n a l (a.run d l) h hk hAt
    · rw [traversePublish_of_not_mem hmem]
      obtain ⟨E, he, hnd, hE, hev⟩ := hQL n a l (a.run d l) (l :: h) hk hAt
      refine ⟨l :: E, ?_, ?_, ?_, ?_⟩
      · simp only
        rw [he, List.reverse_cons, List.append_assoc]
        rfl
      · rw [List.nodup_cons]
        refine ⟨fun hl => ?_, hnd⟩
        exact (hE l hl).1 (List.mem_cons_self _ _)
      · intro p hp
        rcases List.mem_cons.mp hp with hp | hp
        · subst hp
          exact ⟨hmem, by rw [hAt]; rfl⟩
        · have h1 := hE p hp
          exact ⟨fun hm => h1.1 (List.mem_cons_of_mem _ hm), h1.2⟩
      · simp only
        rw [List.flatMap_cons, ← hev, emitAt_of_nodeAt hAt]

/-- The per-publish structure at the top level: `Publish` visits a
duplicate-free list `E` of existing nodes (the final visited set, in
reverse visit order) and its event stream is the concatenation of their
emission blocks. -/
theorem Publish_travInv (t : Node) (d : Datum) (a : Trav) :
    ∃ E : List (List Label),
      (Publish t d a).2 = E.reverse ∧ E.Nodup ∧
      (∀ p ∈ E, (nodeAt t p).isSome) ∧
      (Publish t d a).1 = E.flatMap (emitAt t) := by
  obtain ⟨E, he, hnd, hE, hev⟩ :=
    (traversePublish_travInv t d (sizeOf t)).1 t a [] [] le_rfl rfl
  exact ⟨E, by simpa using he, hnd, fun p hp => (hE p hp).2, hev⟩

/-! ### Locating nodes in the path/node enumeration -/

theorem allPathNodes_eq (t : Node) (pre : List Label) :
    allPathNodes t pre =
      (pre, t) :: t.children.flatMap (fun qc => allPathNodes qc.2 (pre ++ [qc.1])) := by
  cases t with
  | mk cs s sh =>
    rw [allPathNodes]
    simp only [List.flatMap_def]
    rw [List.attach_map_val cs (fun qc => allPathNodes qc.2 (pre ++ [qc.1]))]
    simp [Node.children]

theorem mem_allPathNodes_of_nodeAt {t m : Node} {p : List Label} (pre : List Label)
    (h : nodeAt t p = some m) : (pre ++ p, m) ∈ allPathNodes t pre := by
  induction p generalizing t pre with
  | nil =>
    simp only [nodeAt, Option.some.injEq] at h
    subst h
    rw [allPathNodes_eq]
    simp
  | cons q rest ih =>
    simp only [nodeAt] at h
    cases hf : t.FetchChild q with
    | none => rw [hf] at h; exact absurd h (by simp)
    | some c =>
      rw [hf] at h
      rw [allPathNodes_eq]
      refine List.mem_cons_of_mem _ (List.mem_flatMap.mpr ⟨(q, c), mem_of_alookup hf, ?_⟩)
      have := ih (pre ++ [q]) h
      simpa using this

theorem allPathNodes_shift_aux : ∀ (k : Nat) (c : Node), sizeOf c ≤ k → ∀ pre,
    allPathNodes c pre = (allPathNodes c []).map (fun pm => (pre ++ pm.1, pm.2)) := by
  intro k
  induction k with
  | zero =>
    intro c hc
    exact absurd hc (by have := one_le_sizeOf_node c; omega)
  | succ k ih =>
    intro c hc pre
    rw [allPathNodes_eq c pre, allPathNodes_eq c []]
    simp only [List.map_cons, List.append_nil, List.nil_append]
    congr 1
    rw [List.map_flatMap]
    refine List.flatMap_congr ?_
    intro qc hqc
    have hs : sizeOf qc.2 ≤ k := by
      have := sizeOf_children_mem hqc
      omega
    rw [ih qc.2 hs (pre ++ [qc.1]), ih qc.2 hs [qc.1], List.map_map]
    refine List.map_congr_left ?_
    intro pm _
    simp [Function.comp]

theorem allPathNodes_shift (c : Node) (pre : List Label) :
    allPathNodes c pre = (allPathNodes c []).map (fun pm => (pre ++ pm.1, pm.2)) :=
  allPathNodes_shift_aux (sizeOf c) c le_rfl pre

/-- Recursive characterization of an everywhere-true node predicate. -/
theorem allNodesB_iff (P : Node → Bool) (t : Node) :
    allNodesB P t = true ↔
      P t = true ∧ ∀ qc ∈ t.children, allNodesB P qc.2 = true := by
  unfold allNodesB
  rw [allPathNodes_eq]
  simp only [List.all_cons, Bool.and_eq_true, List.all_eq_true, List.nil_append]
  constructor
  · rintro ⟨hroot, hrest⟩
    refine ⟨hroot, fun qc hqc pm hpm => ?_⟩
    refine hrest ((qc.1 :: pm.1, pm.2)) ?_
    refine List.mem_flatMap.mpr ⟨qc, hqc, ?_⟩
    rw [allPathNodes_shift qc.2 [qc.1]]
    exact List.mem_map.mpr ⟨pm, hpm, rfl⟩
  · rintro ⟨hroot, hrest⟩
    refine ⟨hroot, fun pm hpm => ?_⟩
    obtain ⟨qc, hqc, hpm'⟩ := List.mem_flatMap.mp hpm
    rw [allPathNodes_shift qc.2 [qc.1]] at hpm'
    obtain ⟨pm₀, hpm₀, hpm₀e⟩ := List.mem_map.mp hpm'
    have := hrest qc hqc pm₀ hpm₀
    rw [← hpm₀e]
    exact this

theorem allNodesB_new (P : Node → Bool) : allNodesB P Node.new = P Node.new := by
  unfold allNodesB
  rw [allPathNodes_eq]
  simp [Node.new, Node.children]

/-! ### Counting deliveries (claim on at-most-once delivery) -/

theorem sum_map_flatMap {α β : Type} (E : List α) (f : α → List β) (g : β → Nat) :
    ((E.flatMap f).map g).sum = (E.map (fun p => ((f p).map g).sum)).sum := by
  induction E with
  | nil => rfl
  | cons a E ih => simp [List.flatMap_cons, ih]

theorem sublist_sum_le {l₁ l₂ : List Nat} (h : List.Sublist l₁ l₂) : l₁.sum ≤ l₂.sum := by
  induction h with
  | slnil => exact le_rfl
  | cons a _ ih => simp only [List.sum_cons]; omega
  | cons₂ a _ ih => simp only [List.sum_cons]; omega

theorem subperm_sum_le {α : Type} {l₁ l₂ : List α} (f : α → Nat) (h : List.Subperm l₁ l₂) :
    (l₁.map f).sum ≤ (l₂.map f).sum := by
  obtain ⟨l, hperm, hsub⟩ := h
  calc (l₁.map f).sum = (l.map f).sum := ((hperm.map f).sum_eq).symm
    _ ≤ (l₂.map f).sum := sublist_sum_le (hsub.map f)

theorem touches_emitNode (l : List Label) (n : Node) (i : Id) :
    ((emitNode l n).map (touches i)).sum = idCountNode n i := by
  unfold emitNode idCountNode
  induction n.subscriptions with
  | nil => rfl
  | cons b bs ih =>
    simp only [List.flatMap_cons, List.map_append, List.sum_append, List.map_cons,
      List.sum_cons, ih]
    by_cases hb : b.1 = ""
    · rw [if_pos hb]
      congr 1
      induction b.2 with
      | nil => rfl
      | cons e es ihe =>
        simp only [List.map_cons, List.sum_cons, List.countP_cons, touches, ihe]
        by_cases he : (e.id == i) = true
        · simp [he]
          omega
        · simp only [List.countP_cons, he, touches, ihe]
          simp only [Bool.not_eq_true] at he
          simp [he]
    · rw [if_neg hb]
      simp [touches]

/-- Emitted nodes are distinct positions of the trie, so summing any
per-node count over them is bounded by the whole-trie count. -/
theorem sum_idCountNode_le_tree {t : Node} {E : List (List Label)} (i : Id)
    (hnd : E.Nodup) (hv : ∀ p ∈ E, (nodeAt t p).isSome) :
    (E.map (fun p => ((emitAt t p).map (touches i)).sum)).sum ≤ idCountTree t i := by
  have h1 : (E.map (fun p => ((emitAt t p).map (touches i)).sum)) =
      ((E.map (fun p => (p, (nodeAt t p).getD Node.new))).map
        (fun pm => idCountNode pm.2 i)) := by
    rw [List.map_map]
    refine List.map_congr_left ?_
    intro p hp
    have hsome := hv p hp
    obtain ⟨m, hm⟩ := Option.isSome_iff_exists.mp hsome
    simp only [Function.comp]
    rw [emitAt_of_nodeAt hm, touches_emitNode, hm]
    rfl
  rw [h1]
  have h2 : (E.map (fun p => (p, (nodeAt t p).getD Node.new))).Nodup :=
    hnd.map (fun a b hab => congrArg Prod.fst hab)
  have h3 : (E.map (fun p => (p, (nodeAt t p).getD Node.new))) ⊆ allPathNodes t [] := by
    intro pm hm
    obtain ⟨p, hp, hpm⟩ := List.mem_map.mp hm
    obtain ⟨m, hmm⟩ := Option.isSome_iff_exists.mp (hv p hp)
    have := mem_allPathNodes_of_nodeAt [] hmm
    rw [← hpm]
    simpa [hmm] using this
  exact subperm_sum_le _ (h2.subperm h3)

/-! ### Filtering the event stream by emitting node -/

/-- Recognizes a direct write performed at the node with root path `p`. -/
def isWriteAt (p : List Label) : Event → Bool
  | .write l _ => l == p
  | .shard _ _ _ => false

/-- Recognizes a dispatcher call for shard id `sid` at the node with root
path `p`. -/
def isShardAt (p : List Label) (sid : Label) : Event → Bool
  | .write _ _ => false
  | .shard l s _ => l == p && s == sid

theorem path_of_mem_emitNode {e : Event} {l : List Label} {n : Node}
    (h : e ∈ emitNode l n) : e.path = l := by
  unfold emitNode at h
  obtain ⟨b, _, hb⟩ := List.mem_flatMap.mp h
  by_cases hsh : b.1 = ""
  · rw [if_pos hsh] at hb
    obtain ⟨x, _, hx⟩ := List.mem_map.mp hb
    rw [← hx]; rfl
  · rw [if_neg hsh] at hb
    simp only [List.mem_singleton] at hb
    rw [hb]; rfl

theorem shard_mem_emitNode {e : Event} {l p : List Label} {sid : Label}
    {es : List Envelope} {n : Node} (h : e ∈ emitNode l n)
    (he : e = Event.shard p sid es) : p = l ∧ (sid, es) ∈ n.subscriptions ∧ sid ≠ "" := by
  unfold emitNode at h
  obtain ⟨b, hbmem, hb⟩ := List.mem_flatMap.mp h
  by_cases hsh : b.1 = ""
  · rw [if_pos hsh] at hb
    obtain ⟨x, _, hx⟩ := List.mem_map.mp hb
    rw [he] at hx
    exact absurd hx (by simp)
  · rw [if_neg hsh] at hb
    simp only [List.mem_singleton] at hb
    rw [he] at hb
    obtain ⟨h1, h2, h3⟩ := Event.shard.inj hb
    refine ⟨h1, ?_, by rw [h2]; exact hsh⟩
    have : b = (sid, es) := by
      cases b; simp_all
    rw [← this]; exact hbmem

theorem filter_flatMap_comm {α : Type} (l : List α) (f : α → List Event) (q : Event → Bool) :
    ((l.flatMap f).filter q) = l.flatMap (fun x => (f x).filter q) := by
  induction l with
  | nil => rfl
  | cons a l ih => simp [List.flatMap_cons, List.filter_append, ih]

theorem filter_flatMap_nil {E : List (List Label)} {f : List Label → List Event}
    {q : Event → Bool} (h : ∀ p' ∈ E, (f p').filter q = []) : (E.flatMap f).filter q = [] := by
  induction E with
  | nil => rfl
  | cons a E ih =>
    rw [List.flatMap_cons, List.filter_append, h a (List.mem_cons_self _ _),
      ih (fun p' hp' => h p' (List.mem_cons_of_mem _ hp'))]
    rfl

theorem filter_flatMap_single {E : List (List Label)} {p : List Label}
    (f : List Label → List Event) (q : Event → Bool) (hnd : E.Nodup) (hp : p ∈ E)
    (hother : ∀ p' ∈ E, p' ≠ p → (f p').filter q = []) :
    (E.flatMap f).filter q = (f p).filter q := by
  induction E with
  | nil => cases hp
  | cons a E ih =>
    rw [List.flatMap_cons, List.filter_append]
    rcases List.mem_cons.mp hp with rfl | hp'
    · have hnot : p ∉ E := (List.nodup_cons.mp hnd).1
      rw [filter_flatMap_nil (fun p' hp' => hother p' (List.mem_cons_of_mem _ hp')
        (fun hpp => hnot (hpp ▸ hp')))]
      simp
    · have ha : a ≠ p := by
        rintro rfl
        exact (List.nodup_cons.mp hnd).1 hp'
      rw [hother a (List.mem_cons_self _ _) ha,
        ih (List.nodup_cons.mp hnd).2 hp' (fun p' h' hne => hother p' (List.mem_cons_of_mem _ h') hne)]
      rfl

theorem flatMap_if_eq_nil {α : Type} {subs : List (Label × α)} (key : Label)
    (f : Label × α → List Event) (h : ∀ b ∈ subs, b.1 ≠ key) :
    subs.flatMap (fun b => if b.1 = key then f b else []) = [] := by
  induction subs with
  | nil => rfl
  | cons b bs ih =>
    rw [List.flatMap_cons, if_neg (h b (List.mem_cons_self _ _)),
      ih (fun b' hb' => h b' (List.mem_cons_of_mem _ hb'))]
    rfl

theorem flatMap_if_single {α : Type} {subs : List (Label × α)} {key : Label} {v : α}
    (f : Label × α → List Event) (hnd : (subs.map Prod.fst).Nodup) (hmem : (key, v) ∈ subs) :
    subs.flatMap (fun b => if b.1 = key then f b else []) = f (key, v) := by
  induction subs with
  | nil => cases hmem
  | cons b bs ih =>
    rw [List.map_cons, List.nodup_cons] at hnd
    rcases List.mem_cons.mp hmem with rfl | hmem'
    · rw [List.flatMap_cons, if_pos rfl,
        flatMap_if_eq_nil key f ?_]
      · simp
      · intro b' hb' hbk
        have hx : b'.1 ∈ bs.map Prod.fst := List.mem_map_of_mem Prod.fst hb'
        rw [hbk] at hx
        exact hnd.1 hx
    · have hbk : b.1 ≠ key := by
        intro hb
        have hx : key ∈ bs.map Prod.fst := List.mem_map_of_mem Prod.fst hmem'
        rw [← hb] at hx
        exact hnd.1 hx
      rw [List.flatMap_cons, if_neg hbk, ih hnd.2 hmem']
      rfl

theorem filter_isWriteAt_emitNode_ne {p l : List Label} {n : Node} (hne : l ≠ p) :
    (emitNode l n).filter (isWriteAt p) = [] := by
  rw [List.filter_eq_nil]
  intro e he
  have hp := path_of_mem_emitNode he
  cases e with
  | write l' e' =>
    simp only [Event.path] at hp
    subst hp
    simp [isWriteAt, hne]
  | shard l' s' es' => simp [isWriteAt]

theorem filter_isShardAt_emitNode_ne {p l : List Label} {sid : Label} {n : Node}
    (hne : l ≠ p) : (emitNode l n).filter (isShardAt p sid) = [] := by
  rw [List.filter_eq_nil]
  intro e he
  have hp := path_of_mem_emitNode he
  cases e with
  | write l' e' => simp [isShardAt]
  | shard l' s' es' =>
    simp only [Event.path] at hp
    subst hp
    simp [isShardAt, hne]

theorem filter_isWriteAt_emitNode (p : List Label) (n : Node) :
    (emitNode p n).filter (isWriteAt p) =
      n.subscriptions.flatMap (fun b => if b.1 = "" then b.2.map (Event.write p) else []) := by
  unfold emitNode
  rw [filter_flatMap_comm]
  rw [List.flatMap_def, List.flatMap_def]
  congr 1
  refine List.map_congr_left ?_
  intro b _
  by_cases hb : b.1 = ""
  · rw [if_pos hb, if_pos hb]
    rw [List.filter_eq_self.mpr]
    intro e he
    obtain ⟨x, _, hx⟩ := List.mem_map.mp he
    rw [← hx]
    simp [isWriteAt]
  · rw [if_neg hb, if_neg hb]
    simp [isWriteAt]

theorem filter_isShardAt_emitNode (p : List Label) (n : Node) {sid : Label} (hsid : sid ≠ "") :
    (emitNode p n).filter (isShardAt p sid) =
      n.subscriptions.flatMap (fun b => if b.1 = sid then [Event.shard p sid b.2] else []) := by
  unfold emitNode
  rw [filter_flatMap_comm]
  rw [List.flatMap_def, List.flatMap_def]
  congr 1
  refine List.map_congr_left ?_
  intro b _
  by_cases hb : b.1 = ""
  · rw [if_pos hb, if_neg (by rw [hb]; exact fun hx => hsid hx.symm)]
    rw [List.filter_eq_nil.mpr]
    intro e he
    obtain ⟨x, _, hx⟩ := List.mem_map.mp he
    rw [← hx]
    simp [isShardAt]
  · rw [if_neg hb]
    by_cases hbs : b.1 = sid
    · rw [if_pos hbs]
      simp [isShardAt, hbs]
    · rw [if_neg hbs]
      simp [isShardAt, hbs]

theorem RandShardingWrite_mem (rv : Nat) {es : List Envelope} (h : es ≠ []) :
    ∃ e, RandShardingWrite rv es = some e ∧ e ∈ es := by
  have hlen : 0 < es.length := List.length_pos.mpr h
  have hlt : rv % es.length < es.length := Nat.mod_lt _ hlen
  unfold RandShardingWrite
  rw [List.get?_eq_get hlt]
  exact ⟨_, rfl, List.get_mem _ _ _⟩

/-- **C1.**  For every publish invocation and every subscription present in
the trie for the whole publish, the subscription's write is invoked at
most once during that publish, regardless of how many branches of the
caller-supplied traverser converge on the subscription's node (the
per-publish visited set guarantees this).  The subscription is identified
by its id; `idCountTree t i ≤ 1` states that it sits (at most) once in
the trie, which is how the registry stores every subscription (spec
invariant 1; see the claim on id uniqueness).  `deliveryCount` counts the
direct writes to the subscription plus the dispatcher calls whose bucket
contains it — the dispatcher writes to exactly one member per call, so
this bounds the number of `Write` invocations on the subscription for
every dispatcher. -/
theorem publish_at_most_once_per_subscription (t : Node) (d : Datum) (a : Trav) (i : Id)
    (huniq : idCountTree t i ≤ 1) :
    deliveryCount (Publish t d a).1 i ≤ 1 := by
  obtain ⟨E, _, hnd, hv, hev⟩ := Publish_travInv t d a
  rw [hev]
  unfold deliveryCount
  rw [sum_map_flatMap]
  exact le_trans (sum_idCountNode_le_tree i hnd hv) huniq

/-- **C2.**  When a publish traversal reaches a node not yet visited (the
node's root path `p` ends up in the visited set), then for every bucket of
that node: with empty shard id, every subscriber of the bucket gets
exactly the writes of the bucket in the bucket's insertion order; with a
non-empty shard id, the sharding algorithm is called exactly once, handed
that bucket's subscribers, and (third conjunct) the default dispatcher
then delivers to exactly one member of the group.  `hkeys` is the Go map
guarantee that the bucket keys of the node are distinct. -/
theorem publish_bucket_delivery {t : Node} (d : Datum) (a : Trav) {p : List Label}
    {m : Node} {sid : Label} {ss : List Envelope}
    (hkeys : (m.subscriptions.map Prod.fst).Nodup)
    (hm : nodeAt t p = some m)
    (hvisited : p ∈ (Publish t d a).2)
    (hbucket : (sid, ss) ∈ m.subscriptions) :
    (sid = "" → (Publish t d a).1.filter (isWriteAt p) = ss.map (Event.write p)) ∧
    (sid ≠ "" → (Publish t d a).1.filter (isShardAt p sid) = [Event.shard p sid ss]) ∧
    (∀ rv : Nat, ss ≠ [] → ∃ e, RandShardingWrite rv ss = some e ∧ e ∈ ss) := by
  obtain ⟨E, hhist, hnd, hv, hev⟩ := Publish_travInv t d a
  rw [hhist] at hvisited
  have hpE : p ∈ E := by simpa using hvisited
  refine ⟨?_, ?_, fun rv hne => RandShardingWrite_mem rv hne⟩
  · intro hsid
    subst hsid
    rw [hev, filter_flatMap_single (emitAt t) _ hnd hpE ?_]
    · rw [emitAt_of_nodeAt hm, filter_isWriteAt_emitNode,
        flatMap_if_single _ hkeys hbucket]
    · intro p' hp' hne
      unfold emitAt
      cases hn' : nodeAt t p' with
      | none => simp
      | some m' => exact filter_isWriteAt_emitNode_ne hne
  · intro hsid
    rw [hev, filter_flatMap_single (emitAt t) _ hnd hpE ?_]
    · rw [emitAt_of_nodeAt hm, filter_isShardAt_emitNode p m hsid,
        flatMap_if_single _ hkeys hbucket]
    · intro p' hp' hne
      unfold emitAt
      cases hn' : nodeAt t p' with
      | none => simp
      | some m' => exact filter_isShardAt_emitNode_ne hne

/-! ### Non-empty buckets: established by `AddSubscription`, maintained by
`DeleteSubscription`, observed by `Publish` -/

theorem children_AddSubscription (n : Node) (s : Subscriber) (sid : Label) (rv : Id) :
    (n.AddSubscription s sid rv).children = n.children := rfl

theorem children_DeleteSubscription (n : Node) (i : Id) :
    (n.DeleteSubscription i).children = n.children := by
  unfold Node.DeleteSubscription
  cases alookup n.shards i with
  | none => rfl
  | some sid => simp

theorem nodeBucketsNE_of_all {n : Node}
    (h : ∀ b ∈ n.subscriptions, b.2 ≠ []) : nodeBucketsNE n = true := by
  unfold nodeBucketsNE
  rw [List.all_eq_true]
  intro b hb
  simpa [List.isEmpty_iff] using h b hb

theorem all_of_nodeBucketsNE {n : Node} (h : nodeBucketsNE n = true) :
    ∀ b ∈ n.subscriptions, b.2 ≠ [] := by
  unfold nodeBucketsNE at h
  rw [List.all_eq_true] at h
  intro b hb
  simpa [List.isEmpty_iff] using h b hb

theorem Subscribe_preserves_bucketsNE {t : Node} (p : List Label) (s : Subscriber)
    (sid : Label) (rv : Id) (h : bucketsNEB t = true) :
    bucketsNEB (Subscribe t p s sid rv) = true := by
  induction p generalizing t with
  | nil =>
    obtain ⟨hroot, hchild⟩ := (allNodesB_iff _ t).mp h
    refine (allNodesB_iff _ _).mpr ⟨?_, ?_⟩
    · refine nodeBucketsNE_of_all ?_
      intro b hb
      simp only [Subscribe, Node.AddSubscription, Node.subscriptions_mk] at hb
      rcases mem_aupdate hb with hb | hb
      · exact all_of_nodeBucketsNE hroot b hb
      · rw [hb]; simp
    · intro qc hqc
      simp only [Subscribe, Node.AddSubscription, Node.children_mk] at hqc
      exact hchild qc hqc
  | cons q rest ih =>
    obtain ⟨hroot, hchild⟩ := (allNodesB_iff _ t).mp h
    refine (allNodesB_iff _ _).mpr ⟨?_, ?_⟩
    · simpa only [Subscribe, Node.setChild, Node.subscriptions_mk] using hroot
    · intro qc hqc
      simp only [Subscribe, Node.setChild, Node.children_mk] at hqc
      rcases mem_aupdate hqc with hqc | hqc
      · exact hchild qc hqc
      · rw [hqc]
        cases hfc : t.FetchChild q with
        | some c =>
          simp only [hfc, Option.getD_some]
          exact ih (hchild (q, c) (mem_of_alookup hfc))
        | none =>
          simp only [hfc, Option.getD_none]
          refine ih ?_
          rw [bucketsNEB, allNodesB_new]
          rfl

theorem mem_subscriptions_DeleteSubscription {n : Node} {i : Id} {b : Label × List Envelope}
    (hb : b ∈ (n.DeleteSubscription i).subscriptions) :
    b ∈ n.subscriptions ∨ b.2 ≠ [] := by
  unfold Node.DeleteSubscription at hb
  split at hb
  · left; exact hb
  · simp only [Node.subscriptions_mk] at hb
    split at hb
    · left; exact mem_aerase hb
    · next hemp =>
      rcases mem_aupdate hb with hb | hb
      · left; exact hb
      · right
        rw [hb]
        simpa [List.isEmpty_iff] using hemp

theorem cleanup_preserves_bucketsNE {i : Id} : ∀ (p : List Label) {t t' : Node},
    bucketsNEB t = true → cleanupSubscriptionTree t i p = some t' →
    bucketsNEB t' = true := by
  intro p
  induction p with
  | nil =>
    intro t t' h hcl
    simp only [cleanupSubscriptionTree, Option.some.injEq] at hcl
    subst hcl
    obtain ⟨hroot, hchild⟩ := (allNodesB_iff _ t).mp h
    refine (allNodesB_iff _ _).mpr ⟨?_, ?_⟩
    · refine nodeBucketsNE_of_all ?_
      intro b hb
      rcases mem_subscriptions_DeleteSubscription hb with hb | hb
      · exact all_of_nodeBucketsNE hroot b hb
      · exact hb
    · intro qc hqc
      rw [children_DeleteSubscription] at hqc
      exact hchild qc hqc
  | cons q rest ih =>
    intro t t' h hcl
    obtain ⟨hroot, hchild⟩ := (allNodesB_iff _ t).mp h
    simp only [cleanupSubscriptionTree] at hcl
    split at hcl
    · cases hcl
    · next child hfc =>
      split at hcl
      · cases hcl
      · next child' hrec =>
        simp only [Option.some.injEq] at hcl
        subst hcl
        have hch : bucketsNEB child' = true :=
          ih (hchild (q, child) (mem_of_alookup hfc)) hrec
        by_cases hcond : child'.ChildLen = 0 ∧ child'.SubscriptionLen = 0
        · rw [if_pos hcond]
          refine (allNodesB_iff _ _).mpr ⟨?_, ?_⟩
          · simpa only [Node.DeleteChild, Node.setChild, Node.subscriptions_mk] using hroot
          · intro qc hqc
            simp only [Node.DeleteChild, Node.setChild, Node.children_mk] at hqc
            rw [aerase_aupdate] at hqc
            exact hchild qc (mem_aerase hqc)
        · rw [if_neg hcond]
          refine (allNodesB_iff _ _).mpr ⟨?_, ?_⟩
          · simpa only [Node.setChild, Node.subscriptions_mk] using hroot
          · intro qc hqc
            simp only [Node.setChild, Node.children_mk] at hqc
            rcases mem_aupdate hqc with hqc | hqc
            · exact hchild qc hqc
            · rw [hqc]
              exact hch

/-- **C9.**  A publish never invokes the sharding algorithm with an empty
subscribers list: under invariant 3 (`bucketsNEB`, no empty bucket
anywhere) every dispatcher call of the traversal carries a non-empty
bucket.  The invariant is maintained because `AddSubscription` always
appends a record to the bucket it touches (second conjunct) and
`DeleteSubscription` removes a bucket entry the moment it becomes empty
(third conjunct, through any unsubscribe walk); consequently the default
random dispatcher's index draw over the list length cannot fail (fourth
conjunct). -/
theorem publish_never_dispatches_empty (t : Node) (d : Datum) (a : Trav)
    (hne : bucketsNEB t = true) :
    (∀ e ∈ (Publish t d a).1, ∀ p sid es, e = Event.shard p sid es → es ≠ []) ∧
    (∀ (p : List Label) (s : Subscriber) (sid : Label) (rv : Id),
      bucketsNEB (Subscribe t p s sid rv) = true) ∧
    (∀ (p : List Label) (i : Id) (t' : Node),
      cleanupSubscriptionTree t i p = some t' → bucketsNEB t' = true) ∧
    (∀ (rv : Nat) (es : List Envelope), es ≠ [] → (RandShardingWrite rv es).isSome) := by
  refine ⟨?_, fun p s sid rv => Subscribe_preserves_bucketsNE p s sid rv hne,
    fun p i t' hcl => cleanup_preserves_bucketsNE p hne hcl, ?_⟩
  · intro e he p sid es hesh
    obtain ⟨E, _, hnd, hv, hev⟩ := Publish_travInv t d a
    rw [hev] at he
    obtain ⟨p', hp', hee⟩ := List.mem_flatMap.mp he
    unfold emitAt at hee
    cases hn' : nodeAt t p' with
    | none => rw [hn'] at hee; cases hee
    | some m' =>
      rw [hn'] at hee
      obtain ⟨hpl, hmem, hsid⟩ := shard_mem_emitNode hee hesh
      have hpm := mem_allPathNodes_of_nodeAt [] hn'
      have hall : nodeBucketsNE m' = true := by
        have := List.all_eq_true.mp hne _ (by simpa using hpm)
        exact this
      exact all_of_nodeBucketsNE hall _ hmem
  · intro rv es h
    obtain ⟨e, he, _⟩ := RandShardingWrite_mem rv h
    rw [he]
    rfl

/-! ### Concrete instances used by counterexamples and witnesses -/

/-- A leaf holding one subscription (subscriber 7, id 5, no shard). -/
def leafB : Node := .mk [] [("", [⟨7, 5⟩])] [(5, "")]

/-- A node with the single child `"b" ↦ leafB` and nothing else: the node
at path `["a"]` of the example trie. -/
def nodeA : Node := .mk [("b", leafB)] [] []

/-- A traverser that yields label `"b"` under path `["a"]` and stops
everywhere else. -/
def travT2 : Trav := .mk (fun _ l => if l = ["a"] then [("b", none)] else [])

/-- A traverser that stops immediately. -/
def travStop : Trav := .mk (fun _ _ => [])

/-- A one-subscription root trie: subscriber 7, id 5, shard id `""`. -/
def rootOneSub : Node := .mk [] [("", [⟨7, 5⟩])] [(5, "")]

/-- **C3, counterexample.**  The claim says that an invocation of
`traversePublish` on a node already in the visited set "returns without
further traversal from that node", i.e. yields no events and leaves the
visited set unchanged.  At the node `nodeA` (root path `["a"]`, already
visited) under traverser `travT2` the code instead still invokes the
traverser, recurses to the child `"b"`, and delivers to the subscription
there — the result is not `([], [["a"]])`. -/
theorem revisited_node_still_recursed :
    traversePublish 0 travT2 nodeA ["a"] [["a"]] ≠ (([] : List Event), [["a"]]) := by
  have hstep : traversePublish 0 travT2 nodeA ["a"] [["a"]] =
      ([Event.write ["a", "b"] ⟨7, 5⟩], [["a", "b"], ["a"]]) := by
    simp [traversePublish, traversePublishPaths, nodeA, leafB, travT2, Trav.run, emitNode,
      Node.FetchChild, Node.children, Node.subscriptions, alookup]
  rw [hstep]
  intro hcontra
  exact absurd (congrArg Prod.fst hcontra) (by simp)

/-- **C3, amended.**  When the traversal reaches a node whose path is
already in the visited set, it skips emission to that node's
subscriptions, but it still invokes the traverser and recurses into the
node's children (the `ForEachSubscription` block is the only part guarded
by the visited set): the invocation behaves exactly like the bare
`paths.At` loop.  At-most-once emission is nevertheless preserved, since
every node's emission is itself guarded by the visited set (see the
at-most-once claim). -/
theorem revisit_skips_emission_but_recurses (d : Datum) (a : Trav) (n : Node)
    (l : List Label) (h : List (List Label)) (hmem : l ∈ h) :
    traversePublish d a n l h = traversePublishPaths d a n l (a.run d l) h :=
  traversePublish_of_mem hmem

/-- Witness for the amended claim on revisited nodes. -/
theorem revisit_skips_emission_but_recurses_witness :
    (["a"] ∈ [["a"]]) ∧
    traversePublish 0 travT2 nodeA ["a"] [["a"]] =
      traversePublishPaths 0 travT2 nodeA ["a"] (travT2.run 0 ["a"]) [["a"]] :=
  ⟨by simp, revisit_skips_emission_but_recurses 0 travT2 nodeA ["a"] [["a"]] (by simp)⟩

/-! ### Pruning (claims on the unsubscribe walk) -/

theorem nonEmptyB_iff (n : Node) :
    nonEmptyB n = true ↔ ¬(n.ChildLen = 0 ∧ n.SubscriptionLen = 0) := by
  simp only [nonEmptyB, Bool.not_eq_true', decide_eq_false_iff_not]

theorem prunedB_child {t : Node} {q : Label} {c : Node} (h : prunedB t = true)
    (hm : (q, c) ∈ t.children) : nonEmptyB c = true ∧ prunedB c = true := by
  unfold prunedB at h
  have hall := List.all_eq_true.mp h _ hm
  unfold allNonEmptyB at hall
  obtain ⟨hroot, hch⟩ := (allNodesB_iff _ c).mp hall
  refine ⟨hroot, ?_⟩
  unfold prunedB
  rw [List.all_eq_true]
  intro qc hqc
  exact hch qc hqc

theorem prunedB_of_parts {t : Node}
    (h : ∀ qc ∈ t.children, nonEmptyB qc.2 = true ∧ prunedB qc.2 = true) :
    prunedB t = true := by
  unfold prunedB
  rw [List.all_eq_true]
  intro qc hqc
  show allNonEmptyB qc.2 = true
  unfold allNonEmptyB
  refine (allNodesB_iff _ _).mpr ⟨(h qc hqc).1, ?_⟩
  intro qc' hqc'
  have := (h qc hqc).2
  unfold prunedB at this
  exact List.all_eq_true.mp this qc' hqc'

/-- Unfolding of the unsubscribe walk one level down, when the recursive
call succeeds. -/
theorem cleanupSubscriptionTree_cons {t child child' : Node} {i : Id} {q : Label}
    {rest : List Label} (hfc : t.FetchChild q = some child)
    (hrec : cleanupSubscriptionTree child i rest = some child') :
    cleanupSubscriptionTree t i (q :: rest) =
      some (if child'.ChildLen = 0 ∧ child'.SubscriptionLen = 0
            then (t.setChild q child').DeleteChild q else t.setChild q child') := by
  simp only [cleanupSubscriptionTree, hfc, hrec]

/-- **C4.**  After an unsubscribe walk that completes (the stale-handle
crash, modelled as `none`, aside), the pruning invariant holds again: no
node reachable from the root — except possibly the root itself — has zero
children and zero subscriptions.  The walk deletes the subscription at
the leaf of the recorded path and, unwinding bottom-up, unlinks every
child on the path left with no children and no subscriptions; nodes off
the path are untouched, so the invariant before the call (any
registry-built trie satisfies it) gives the invariant after. -/
theorem cleanup_preserves_pruned {i : Id} : ∀ (p : List Label) {t t' : Node},
    prunedB t = true → cleanupSubscriptionTree t i p = some t' → prunedB t' = true := by
  intro p
  induction p with
  | nil =>
    intro t t' h hcl
    simp only [cleanupSubscriptionTree, Option.some.injEq] at hcl
    subst hcl
    unfold prunedB
    rw [children_DeleteSubscription]
    exact h
  | cons q rest ih =>
    intro t t' h hcl
    simp only [cleanupSubscriptionTree] at hcl
    split at hcl
    · cases hcl
    · next child hfc =>
      split at hcl
      · cases hcl
      · next child' hrec =>
        simp only [Option.some.injEq] at hcl
        subst hcl
        have hcp := prunedB_child h (mem_of_alookup hfc)
        have hch' : prunedB child' = true := ih hcp.2 hrec
        by_cases hcond : child'.ChildLen = 0 ∧ child'.SubscriptionLen = 0
        · rw [if_pos hcond]
          refine prunedB_of_parts ?_
          intro qc hqc
          simp only [Node.DeleteChild, Node.setChild, Node.children_mk] at hqc
          rw [aerase_aupdate] at hqc
          exact prunedB_child h (mem_aerase hqc)
        · rw [if_neg hcond]
          refine prunedB_of_parts ?_
          intro qc hqc
          simp only [Node.setChild, Node.children_mk] at hqc
          rcases mem_aupdate hqc with hqc | hqc
          · exact prunedB_child h hqc
          · rw [hqc]
            exact ⟨(nonEmptyB_iff _).mpr hcond, hch'⟩

/-- Witness for the pruning claim: unsubscribing the only subscription of
a one-subscription root trie completes and leaves a pruned trie. -/
theorem cleanup_preserves_pruned_witness :
    prunedB rootOneSub = true ∧
    cleanupSubscriptionTree rootOneSub 5 [] = some (rootOneSub.DeleteSubscription 5) ∧
    prunedB (rootOneSub.DeleteSubscription 5) = true :=
  ⟨rfl, rfl, cleanup_preserves_pruned (t := rootOneSub) [] rfl rfl⟩

/-- **C5.**  Invoking a stale unsubscribe handle whose path nodes were
pruned by the earlier invocation is NOT a silent no-op: the second
invocation reaches `FetchChild` on a label with no child, receives `nil`,
and after the (harmless, nil-guarded) recursive call evaluates
`child.ChildLen()` — which has no nil guard and dereferences the nil
pointer, crashing the program.  The model returns `none` for that crash.
First conjunct: subscribing at `["a"]` on a fresh registry and
unsubscribing once works and restores the empty trie.  Second conjunct:
running the same handle's walk again panics (`none`), where the claim
(and the spec) promise a silent no-op. -/
theorem stale_unsubscribe_panics :
    cleanupSubscriptionTree (Subscribe Node.new ["a"] 7 "" 5) 5 ["a"] = some Node.new ∧
    cleanupSubscriptionTree Node.new 5 ["a"] = none :=
  ⟨rfl, rfl⟩

/-! ### Subscribe-then-unsubscribe round trip -/

theorem removeFirstById_append_fresh {v : List Envelope} {i : Id}
    (h : ∀ e ∈ v, e.id ≠ i) (s : Subscriber) :
    removeFirstById (v ++ [⟨s, i⟩]) i = v := by
  induction v with
  | nil => simp [removeFirstById]
  | cons e es ih =>
    simp only [List.cons_append, removeFirstById]
    rw [if_neg (h e (List.mem_cons_self _ _))]
    show e :: removeFirstById (es ++ [⟨s, i⟩]) i = e :: es
    rw [ih (fun e' he' => h e' (List.mem_cons_of_mem _ he'))]

/-- Removing the subscription just added restores the node exactly,
provided the drawn id is fresh for the node and no bucket of the node is
empty (both hold in every registry-reachable state): the appended
envelope is removed again, an emptied fresh bucket entry is dropped, and
the `shards` entry is erased. -/
theorem DeleteSubscription_AddSubscription {n : Node} (s : Subscriber) (sid : Label) (rv : Id)
    (hsh : alookup n.shards rv = none)
    (hbk : ∀ b ∈ n.subscriptions, ∀ e ∈ b.2, e.id ≠ rv)
    (hne : ∀ b ∈ n.subscriptions, b.2 ≠ []) :
    (n.AddSubscription s sid rv).DeleteSubscription rv = n := by
  have h1 : aupdate n.shards rv sid = n.shards ++ [(rv, sid)] :=
    aupdate_of_alookup_none hsh sid
  have h2 : alookup (n.shards ++ [(rv, sid)]) rv = some sid :=
    alookup_append_last hsh sid
  have h5 : aerase (n.shards ++ [(rv, sid)]) rv = n.shards :=
    aerase_append_last hsh sid
  have hfr : ∀ e ∈ (alookup n.subscriptions sid).getD [], e.id ≠ rv := by
    cases halk : alookup n.subscriptions sid with
    | none => simp
    | some v =>
      simp only [Option.getD_some]
      exact fun e he => hbk (sid, v) (mem_of_alookup halk) e he
  unfold Node.AddSubscription Node.DeleteSubscription
  simp only [Node.shards_mk, Node.subscriptions_mk, Node.children_mk, h1, h2]
  rw [alookup_aupdate_self]
  simp only [Option.getD_some]
  rw [removeFirstById_append_fresh hfr s, h5]
  cases halk : alookup n.subscriptions sid with
  | some v =>
    simp only [halk, Option.getD_some]
    have hv : v ≠ [] := hne (sid, v) (mem_of_alookup halk)
    rw [if_neg (by simpa [List.isEmpty_iff] using hv)]
    rw [aupdate_aupdate, aupdate_of_alookup halk]
    exact Node.eta n
  | none =>
    simp only [halk, Option.getD_none]
    rw [if_pos (show List.isEmpty ([] : List Envelope) = true from rfl)]
    rw [aupdate_of_alookup_none halk, aerase_append_last halk]
    exact Node.eta n

/-- Unsubscribing along a chain of nodes freshly created by a subscribe on
the empty node tears the whole chain down again. -/
theorem cleanup_Subscribe_new (s : Subscriber) (sid : Label) (rv : Id) :
    ∀ rest : List Label,
      cleanupSubscriptionTree (Subscribe Node.new rest s sid rv) rv rest = some Node.new := by
  intro rest
  induction rest with
  | nil =>
    simp only [Subscribe, cleanupSubscriptionTree, Option.some.injEq]
    exact DeleteSubscription_AddSubscription s sid rv rfl (by simp [Node.new]) (by simp [Node.new])
  | cons q rest ih =>
    have hsub : Subscribe Node.new (q :: rest) s sid rv =
        Node.mk [(q, Subscribe Node.new rest s sid rv)] [] [] := rfl
    rw [hsub]
    have hfc : (Node.mk [(q, Subscribe Node.new rest s sid rv)] [] []).FetchChild q =
        some (Subscribe Node.new rest s sid rv) := by
      simp [Node.FetchChild, alookup]
    rw [cleanupSubscriptionTree_cons hfc ih]
    rw [if_pos ⟨rfl, rfl⟩]
    simp [Node.DeleteChild, Node.setChild, aupdate, aerase, Node.new]

/-- **C7.**  Subscribing and then immediately invoking the returned
unsubscribe handle restores the trie to exactly its previous structural
state: the same nodes, the same children at every node, the same buckets
with the same records in the same order.  The hypotheses are the
conditions every registry-reachable state satisfies: the trie is pruned
(invariant 4 — an unreachable empty node on the path would wrongly be
pruned by the unwinding), no bucket is empty (invariant 3 — an empty
pre-existing bucket entry would wrongly be dropped), and the drawn id is
fresh for the whole trie (no collision, the generic case of
`rand.Int63`; see the id-uniqueness claim). -/
theorem Subscribe_unsubscribe_roundtrip : ∀ (p : List Label) {t : Node} (s : Subscriber)
    (sid : Label) (rv : Id), prunedB t = true → bucketsNEB t = true →
    freshIdB t rv = true →
    cleanupSubscriptionTree (Subscribe t p s sid rv) rv p = some t := by
  intro p
  induction p with
  | nil =>
    intro t s sid rv hpr hne hfr
    simp only [Subscribe, cleanupSubscriptionTree, Option.some.injEq]
    obtain ⟨hfroot, _⟩ := (allNodesB_iff _ t).mp hfr
    obtain ⟨hbroot, _⟩ := (allNodesB_iff _ t).mp hne
    unfold nodeFreshId at hfroot
    rw [Bool.and_eq_true] at hfroot
    refine DeleteSubscription_AddSubscription s sid rv ?_ ?_ ?_
    · simpa [Option.isNone_iff_eq_none] using hfroot.1
    · have := List.all_eq_true.mp hfroot.2
      intro b hb e he
      have hbe := List.all_eq_true.mp (this b hb) e he
      simpa using hbe
    · exact all_of_nodeBucketsNE hbroot
  | cons q rest ih =>
    intro t s sid rv hpr hne hfr
    obtain ⟨_, hfchild⟩ := (allNodesB_iff _ t).mp hfr
    obtain ⟨_, hbchild⟩ := (allNodesB_iff _ t).mp hne
    cases hfc : t.FetchChild q with
    | some c =>
      have hsub : Subscribe t (q :: rest) s sid rv =
          t.setChild q (Subscribe c rest s sid rv) := by
        simp only [Subscribe, hfc, Option.getD_some]
      rw [hsub]
      have hfc' : (t.setChild q (Subscribe c rest s sid rv)).FetchChild q =
          some (Subscribe c rest s sid rv) := by
        simp only [Node.FetchChild, Node.setChild, Node.children_mk]
        exact alookup_aupdate_self _ _ _
      have hcm := mem_of_alookup hfc
      have hcp := prunedB_child hpr hcm
      have hrec := ih s sid rv hcp.2 (hbchild _ hcm) (hfchild _ hcm)
      rw [cleanupSubscriptionTree_cons hfc' hrec]
      rw [if_neg ((nonEmptyB_iff c).mp hcp.1)]
      simp only [Node.setChild, Node.children_mk, Option.some.injEq]
      rw [aupdate_aupdate, aupdate_of_alookup hfc]
      exact Node.eta t
    | none =>
      have hsub : Subscribe t (q :: rest) s sid rv =
          t.setChild q (Subscribe Node.new rest s sid rv) := by
        simp only [Subscribe, hfc, Option.getD_none]
      rw [hsub]
      have hfc' : (t.setChild q (Subscribe Node.new rest s sid rv)).FetchChild q =
          some (Subscribe Node.new rest s sid rv) := by
        simp only [Node.FetchChild, Node.setChild, Node.children_mk]
        exact alookup_aupdate_self _ _ _
      rw [cleanupSubscriptionTree_cons hfc' (cleanup_Subscribe_new s sid rv rest)]
      rw [if_pos ⟨rfl, rfl⟩]
      simp only [Node.DeleteChild, Node.setChild, Node.children_mk, Option.some.injEq]
      rw [aupdate_aupdate, aupdate_of_alookup_none hfc, aerase_append_last hfc]
      exact Node.eta t

/-- Witness for the round-trip claim: a fresh registry, path `["a"]`,
subscriber 7, id 5 — all hypotheses hold for the empty trie. -/
theorem Subscribe_unsubscribe_roundtrip_witness :
    prunedB Node.new = true ∧ bucketsNEB Node.new = true ∧
    freshIdB Node.new 5 = true ∧
    cleanupSubscriptionTree (Subscribe Node.new ["a"] 7 "" 5) 5 ["a"] = some Node.new := by
  refine ⟨rfl, ?_, ?_, ?_⟩
  · rw [bucketsNEB, allNodesB_new]
    rfl
  · rw [freshIdB, allNodesB_new]
    rfl
  · exact Subscribe_unsubscribe_roundtrip ["a"] 7 "" 5 rfl
      (by rw [bucketsNEB, allNodesB_new]; rfl)
      (by rw [freshIdB, allNodesB_new]; rfl)

/-! ### Id assignment (claims on uniqueness of subscription ids) -/

theorem nodeAt_cons_some {t c : Node} {q : Label} {rest : List Label}
    (hfc : t.FetchChild q = some c) : nodeAt t (q :: rest) = nodeAt c rest := by
  simp only [nodeAt, hfc]

theorem nodeAt_cons_none {t : Node} {q : Label} {rest : List Label}
    (hfc : t.FetchChild q = none) : nodeAt t (q :: rest) = none := by
  simp only [nodeAt, hfc]

theorem FetchChild_setChild_self (t w : Node) (q : Label) :
    (t.setChild q w).FetchChild q = some w := by
  simp only [Node.FetchChild, Node.setChild, Node.children_mk]
  exact alookup_aupdate_self _ _ _

theorem FetchChild_setChild_ne {t w : Node} {q x : Label} (h : q ≠ x) :
    (t.setChild q w).FetchChild x = t.FetchChild x := by
  simp only [Node.FetchChild, Node.setChild, Node.children_mk]
  exact alookup_aupdate_ne h _ _

/-- The registry stores the id drawn for a subscribe call in the `shards`
index of the target node: `AddSubscription` does `n.shards[id] = shardID`. -/
theorem Subscribe_adds_record (s : Subscriber) (sid : Label) (rv : Id) :
    ∀ (p : List Label) (t : Node),
      ∃ m, nodeAt (Subscribe t p s sid rv) p = some m ∧
        alookup m.shards rv = some sid := by
  intro p
  induction p with
  | nil =>
    intro t
    refine ⟨t.AddSubscription s sid rv, rfl, ?_⟩
    simp only [Node.AddSubscription, Node.shards_mk]
    exact alookup_aupdate_self _ _ _
  | cons q rest ih =>
    intro t
    obtain ⟨m, hm, hlk⟩ := ih ((t.FetchChild q).getD Node.new)
    refine ⟨m, ?_, hlk⟩
    show nodeAt (t.setChild q (Subscribe ((t.FetchChild q).getD Node.new) rest s sid rv))
      (q :: rest) = some m
    rw [nodeAt_cons_some (FetchChild_setChild_self _ _ _)]
    exact hm

/-- A live record with a different id survives any later subscribe: the
only `shards` write of the walk is `n.shards[rv] = shardID` at the target
node, and the walk only updates children along its own path. -/
theorem Subscribe_keeps_record (s : Subscriber) (sid : Label) (rv : Id) :
    ∀ (p' p : List Label) (t m : Node) (i : Id) (sd : Label),
      nodeAt t p = some m → alookup m.shards i = some sd → i ≠ rv →
      ∃ m', nodeAt (Subscribe t p' s sid rv) p = some m' ∧
        alookup m'.shards i = some sd := by
  intro p'
  induction p' with
  | nil =>
    intro p t m i sd hm hlk hne
    cases p with
    | nil =>
      obtain rfl : t = m := by simpa [nodeAt] using hm
      refine ⟨t.AddSubscription s sid rv, rfl, ?_⟩
      simp only [Node.AddSubscription, Node.shards_mk]
      rw [alookup_aupdate_ne (fun h => hne h.symm)]
      exact hlk
    | cons x xs =>
      cases hfc : t.FetchChild x with
      | none => rw [nodeAt_cons_none hfc] at hm; cases hm
      | some c =>
        refine ⟨m, ?_, hlk⟩
        show nodeAt (t.AddSubscription s sid rv) (x :: xs) = some m
        have hfc' : (t.AddSubscription s sid rv).FetchChild x = some c := hfc
        rw [nodeAt_cons_some hfc']
        rw [nodeAt_cons_some hfc] at hm
        exact hm
  | cons q' rest' ih =>
    intro p t m i sd hm hlk hne
    cases p with
    | nil =>
      obtain rfl : t = m := by simpa [nodeAt] using hm
      refine ⟨_, rfl, ?_⟩
      show alookup (t.setChild q' (Subscribe ((t.FetchChild q').getD Node.new) rest' s sid rv)).shards i = some sd
      simp only [Node.setChild, Node.shards_mk]
      exact hlk
    | cons x xs =>
      by_cases hxq : q' = x
      · subst hxq
        cases hfc : t.FetchChild q' with
        | none => rw [nodeAt_cons_none hfc] at hm; cases hm
        | some c =>
          have hm' : nodeAt c xs = some m := by rw [nodeAt_cons_some hfc] at hm; exact hm
          obtain ⟨m', hm'', hlk'⟩ := ih xs c m i sd hm' hlk hne
          refine ⟨m', ?_, hlk'⟩
          show nodeAt (t.setChild q' (Subscribe ((t.FetchChild q').getD Node.new) rest' s sid rv))
            (q' :: xs) = some m'
          rw [nodeAt_cons_some (FetchChild_setChild_self _ _ _)]
          simpa [hfc] using hm''
      · cases hfc : t.FetchChild x with
        | none => rw [nodeAt_cons_none hfc] at hm; cases hm
        | some c =>
          refine ⟨m, ?_, hlk⟩
          show nodeAt (t.setChild q' (Subscribe ((t.FetchChild q').getD Node.new) rest' s sid rv))
            (x :: xs) = some m
          rw [nodeAt_cons_some (by rw [FetchChild_setChild_ne hxq]; exact hfc)]
          rw [nodeAt_cons_some hfc] at hm
          exact hm

/-- **C8, counterexample.**  `AddSubscription` takes the id straight from
`rand.Int63()` with no collision check, so when the generator returns the
same value for two subscribe calls on the same registry, both live
records carry the same id: after subscribing subscriber 7 at `["a"]` and
subscriber 8 at `["b"]` with the draw 5 both times, both nodes' `shards`
indexes hold id 5 — the two simultaneously live records do not have
distinct ids. -/
theorem id_collision_counterexample :
    ∃ m₁ m₂ : Node,
      nodeAt (Subscribe (Subscribe Node.new ["a"] 7 "" 5) ["b"] 8 "" 5) ["a"] = some m₁ ∧
      nodeAt (Subscribe (Subscribe Node.new ["a"] 7 "" 5) ["b"] 8 "" 5) ["b"] = some m₂ ∧
      alookup m₁.shards 5 = some "" ∧ alookup m₂.shards 5 = some "" :=
  ⟨.mk [] [("", [⟨7, 5⟩])] [(5, "")], .mk [] [("", [⟨8, 5⟩])] [(5, "")],
    rfl, rfl, rfl, rfl⟩

/-- **C8, amended.**  Ids are taken directly from the random generator
with no collision retry, so two subscribe calls on the same registry
receive distinct ids exactly when their draws differ: if the draws are
distinct, both records are simultaneously live under their own (distinct)
ids at their respective nodes. -/
theorem distinct_draws_give_distinct_ids (t : Node) (p₁ p₂ : List Label)
    (s₁ s₂ : Subscriber) (sid₁ sid₂ : Label) (rv₁ rv₂ : Id) (hne : rv₁ ≠ rv₂) :
    ∃ m₁ m₂ : Node,
      nodeAt (Subscribe (Subscribe t p₁ s₁ sid₁ rv₁) p₂ s₂ sid₂ rv₂) p₁ = some m₁ ∧
      alookup m₁.shards rv₁ = some sid₁ ∧
      nodeAt (Subscribe (Subscribe t p₁ s₁ sid₁ rv₁) p₂ s₂ sid₂ rv₂) p₂ = some m₂ ∧
      alookup m₂.shards rv₂ = some sid₂ ∧ rv₁ ≠ rv₂ := by
  obtain ⟨m₀, hm₀, hlk₀⟩ := Subscribe_adds_record s₁ sid₁ rv₁ p₁ t
  obtain ⟨m₁, hm₁, hlk₁⟩ :=
    Subscribe_keeps_record s₂ sid₂ rv₂ p₂ p₁ (Subscribe t p₁ s₁ sid₁ rv₁) m₀ rv₁ sid₁
      hm₀ hlk₀ hne
  obtain ⟨m₂, hm₂, hlk₂⟩ := Subscribe_adds_record s₂ sid₂ rv₂ p₂ (Subscribe t p₁ s₁ sid₁ rv₁)
  exact ⟨m₁, m₂, hm₁, hlk₁, hm₂, hlk₂, hne⟩

/-- Witness for the amended id claim, at two concrete draws 5 ≠ 6. -/
theorem distinct_draws_give_distinct_ids_witness :
    (5 : Id) ≠ 6 ∧
    ∃ m₁ m₂ : Node,
      nodeAt (Subscribe (Subscribe Node.new ["a"] 7 "" 5) ["b"] 8 "g" 6) ["a"] = some m₁ ∧
      alookup m₁.shards 5 = some "" ∧
      nodeAt (Subscribe (Subscribe Node.new ["a"] 7 "" 5) ["b"] 8 "g" 6) ["b"] = some m₂ ∧
      alookup m₂.shards 6 = some "g" ∧ (5 : Id) ≠ 6 :=
  ⟨by decide,
    distinct_draws_give_distinct_ids Node.new ["a"] ["b"] 7 8 "" "g" 5 6 (by decide)⟩

/-! ### The node API on a possibly-nil receiver

Each `node.go` method is a pointer-receiver method; `none` is the nil
pointer.  `AddChild`, `FetchChild`, `DeleteChild`, `AddSubscription`,
`DeleteSubscription` and `ForEachSubscription` open with an
`if n == nil` guard and return the zero result.  `ChildLen` and
`SubscriptionLen` do not: they evaluate `len(n.children)` /
`len(n.shards)`, which on nil dereferences the nil pointer and panics —
rendered as `none`. -/

/-- `Node.AddChild` on a possibly-nil receiver: returns the (updated
receiver, returned child).  On nil: no effect, returns nil.  Otherwise
returns the existing child, or links and returns a fresh node. -/
def AddChildO : Option Node → Label → Option Node × Option Node
  | none, _ => (none, none)
  | some n, key =>
    match n.FetchChild key with
    | some c => (some n, some c)
    | none => (some (.mk (aupdate n.children key Node.new) n.subscriptions n.shards),
               some Node.new)

/-- `Node.FetchChild` on a possibly-nil receiver. -/
def FetchChildO : Option Node → Label → Option Node
  | none, _ => none
  | some n, key => n.FetchChild key

/-- `Node.DeleteChild` on a possibly-nil receiver (result = receiver
afterwards). -/
def DeleteChildO : Option Node → Label → Option Node
  | none, _ => none
  | some n, key => some (n.DeleteChild key)

/-- `Node.ChildLen` on a possibly-nil receiver: the method has NO nil
guard, `len(n.children)` dereferences nil and panics (`none`). -/
def ChildLenO : Option Node → Option Nat
  | none => none
  | some n => some n.ChildLen

/-- `Node.SubscriptionLen` on a possibly-nil receiver: no nil guard
either; panics on nil (`none`). -/
def SubscriptionLenO : Option Node → Option Nat
  | none => none
  | some n => some n.SubscriptionLen

/-- `Node.AddSubscription` on a possibly-nil receiver: on nil it returns
id 0 with no effect. -/
def AddSubscriptionO : Option Node → Subscriber → Label → Id → Option Node × Id
  | none, _, _, _ => (none, 0)
  | some n, s, sid, rv => (some (n.AddSubscription s sid rv), rv)

/-- `Node.DeleteSubscription` on a possibly-nil receiver. -/
def DeleteSubscriptionO : Option Node → Id → Option Node
  | none, _ => none
  | some n, i => some (n.DeleteSubscription i)

/-- `Node.ForEachSubscription` on a possibly-nil receiver: the list of
`(shardID, bucket)` pairs the callback is invoked with (none on nil). -/
def ForEachSubscriptionO : Option Node → List (Label × List Envelope)
  | none => []
  | some n => n.subscriptions

/-- **C6, counterexample.**  The claim says `child_count` and
`subscription_count` are defined on the nil sentinel and return the zero
result (count 0).  They are not: `ChildLen` and `SubscriptionLen` lack
the nil guard of every other method and dereference the nil pointer
(modelled as `none`), so neither returns `some 0`. -/
theorem nil_counts_panic :
    ChildLenO none ≠ some 0 ∧ SubscriptionLenO none ≠ some 0 := by
  constructor <;> intro h <;> cases h

/-- **C6, amended.**  Every trie-node operation EXCEPT `ChildLen` and
`SubscriptionLen` is defined on the nil sentinel and returns the zero
result with no effect (no child, nil results, id 0, no callback
invocations, no mutation); `ChildLen` and `SubscriptionLen` dereference
the nil receiver and panic. -/
theorem nil_node_operations (key : Label) (s : Subscriber) (sid : Label) (rv i : Id) :
    AddChildO none key = (none, none) ∧
    FetchChildO none key = none ∧
    DeleteChildO none key = none ∧
    AddSubscriptionO none s sid rv = (none, 0) ∧
    DeleteSubscriptionO none i = none ∧
    ForEachSubscriptionO none = [] ∧
    ChildLenO none = none ∧
    SubscriptionLenO none = none :=
  ⟨rfl, rfl, rfl, rfl, rfl, rfl, rfl, rfl⟩

/-! ### Heap model of the publish traversal (frame property)

For the claim that `Publish` never mutates the trie, node pointers are
kept literal: a heap maps addresses to node payloads, a nil pointer is
`none`, and the per-publish visited set is a list of addresses — exactly
the `map[*node.Node]bool` of the Go code.  Every node operation that the
whole library uses is given on the heap; the publish traversal threads
the heap through and only ever consults the two read-only operations the
Go traversal calls (`FetchChild`, `ForEachSubscription`), which is what
the frame theorem below certifies.  The value-level traversal above and
this one are two renderings of the same Go function; the heap one exists
so that "the heap afterwards is exactly the heap before" is expressible.
The recursion is driven by `fuel` (Lean needs a decreasing measure where
Go recurses through the pointer graph); the frame property holds for
every fuel, so no lower bound on it is needed. -/

/-- A heap address (a `*node.Node` value). -/
abbrev Addr := Nat

/-- The payload of one heap node: like `Node`, but children point via
addresses. -/
structure NodeData where
  children : List (Label × Addr)
  subscriptions : List (Label × List Envelope)
  shards : List (Id × Label)
deriving DecidableEq, Repr

/-- The heap: address → node payload. -/
abbrev Heap := List (Addr × NodeData)

/-- Dereference a pointer. -/
def heapGet (σ : Heap) (p : Addr) : Option NodeData :=
  alookup σ p

/-- Heap store at an address (for the mutating node operations). -/
def heapSet (σ : Heap) (p : Addr) (nd : NodeData) : Heap :=
  aupdate σ p nd

/-- A fresh address: one past the largest allocated one. -/
def heapFresh (σ : Heap) : Addr :=
  (σ.map Prod.fst).foldr max 0 + 1

/-- `Node.FetchChild` on the heap: nil receiver and unknown label both
give nil. -/
def FetchChildH (σ : Heap) (p : Option Addr) (key : Label) : Option Addr :=
  match p with
  | none => none
  | some a =>
    match heapGet σ a with
    | none => none
    | some nd => alookup nd.children key

/-- `Node.AddChild` on the heap: returns the updated heap and the child
pointer; a fresh node is allocated when the label is new. -/
def AddChildH (σ : Heap) (p : Option Addr) (key : Label) : Heap × Option Addr :=
  match p with
  | none => (σ, none)
  | some a =>
    match heapGet σ a with
    | none => (σ, none)
    | some nd =>
      match alookup nd.children key with
      | some c => (σ, some c)
      | none =>
        let c := heapFresh σ
        (heapSet (heapSet σ c ⟨[], [], []⟩) a
          ⟨aupdate nd.children key c, nd.subscriptions, nd.shards⟩, some c)

/-- `Node.DeleteChild` on the heap. -/
def DeleteChildH (σ : Heap) (p : Option Addr) (key : Label) : Heap :=
  match p with
  | none => σ
  | some a =>
    match heapGet σ a with
    | none => σ
    | some nd => heapSet σ a ⟨aerase nd.children key, nd.subscriptions, nd.shards⟩

/-- `Node.AddSubscription` on the heap. -/
def AddSubscriptionH (σ : Heap) (p : Option Addr) (s : Subscriber) (sid : Label)
    (rv : Id) : Heap × Id :=
  match p with
  | none => (σ, 0)
  | some a =>
    match heapGet σ a with
    | none => (σ, 0)
    | some nd =>
      (heapSet σ a
        ⟨nd.children,
         aupdate nd.subscriptions sid ((alookup nd.subscriptions sid).getD [] ++ [⟨s, rv⟩]),
         aupdate nd.shards rv sid⟩, rv)

/-- `Node.DeleteSubscription` on the heap. -/
def DeleteSubscriptionH (σ : Heap) (p : Option Addr) (i : Id) : Heap :=
  match p with
  | none => σ
  | some a =>
    match heapGet σ a with
    | none => σ
    | some nd =>
      match alookup nd.shards i with
      | none => σ
      | some sid =>
        let s' := removeFirstById ((alookup nd.subscriptions sid).getD []) i
        heapSet σ a
          ⟨nd.children,
           if s'.isEmpty then aerase nd.subscriptions sid
           else aupdate nd.subscriptions sid s',
           aerase nd.shards i⟩

/-- The emission block at a heap node (the `ForEachSubscription` body of
the traversal); a read. -/
def emitNodeH (σ : Heap) (a : Addr) (l : List Label) : List Event :=
  match heapGet σ a with
  | none => []
  | some nd =>
    nd.subscriptions.flatMap
      (fun b => if b.1 = "" then b.2.map (Event.write l) else [Event.shard l b.1 b.2])

mutual

/-- `(*PubSub).traversePublish` on the heap, threading the heap through
every step and keying the visited set by address, exactly like the Go
`map[*node.Node]bool`.  Fuel stands in for the (in Go unbounded)
recursion through the pointer graph; each invocation returns the events,
the visited set, and the heap as the executed operations leave it. -/
def traversePublishH (d : Datum) (a : Trav) (fuel : Nat) (p : Option Addr)
    (l : List Label) (h : List Addr) (σ : Heap) :
    List Event × List Addr × Heap :=
  match p with
  | none => ([], h, σ)
  | some ad =>
    match fuel with
    | 0 => ([], h, σ)
    | k + 1 =>
      let eh := if ad ∈ h then (([] : List Event), h) else (emitNodeH σ ad l, ad :: h)
      let r := traversePublishPathsH d a k ad l (a.run d l) eh.2 σ
      (eh.1 ++ r.1, r.2.1, r.2.2)
termination_by (fuel, 0, 0)
decreasing_by
  · exact Prod.Lex.left _ _ (by omega)

/-- The `paths.At` loop of the heap traversal. -/
def traversePublishPathsH (d : Datum) (a : Trav) (fuel : Nat) (ad : Addr)
    (l : List Label) :
    List (Label × Option Trav) → List Addr → Heap → List Event × List Addr × Heap
  | [], h, σ => ([], h, σ)
  | (lbl, ot) :: rest, h, σ =>
    let r := traversePublishH d (ot.getD a) fuel (FetchChildH σ (some ad) lbl)
      (l ++ [lbl]) h σ
    let r2 := traversePublishPathsH d a fuel ad l rest r.2.1 r.2.2
    (r.1 ++ r2.1, r2.2.1, r2.2.2)
termination_by ps _ _ => (fuel, 1, ps.length)
decreasing_by
  · exact Prod.Lex.right _ (Prod.Lex.left _ _ (by omega))
  · exact Prod.Lex.right _ (Prod.Lex.right _ (by simp [List.length_cons]))

end

/-- `(*PubSub).Publish` on the heap: reader lock, then the traversal from
the root pointer with empty path and fresh visited set. -/
def PublishH (σ : Heap) (root : Addr) (d : Datum) (a : Trav) (fuel : Nat) :
    List Event × List Addr × Heap :=
  traversePublishH d a fuel (some root) [] [] σ

/-- **C10.**  Publish never mutates the trie: for every heap (hence every
set of nodes, every node's children mapping, every node's buckets and
every node's id-to-shard index), every datum, every traverser, every
starting pointer and every fuel, the heap after the traversal is exactly
the heap before.  The traversal only executes `FetchChildH` and the
`emitNodeH` read of `ForEachSubscription`; the heap is threaded through
every recursive call and comes back untouched. -/
theorem PublishH_frame (σ : Heap) (root : Addr) (d : Datum) (a : Trav) (fuel : Nat) :
    (PublishH σ root d a fuel).2.2 = σ := by
  have main : ∀ (fuel : Nat),
      (∀ (aa : Trav) (p : Option Addr) (l : List Label) (h : List Addr) (σ' : Heap),
        (traversePublishH d aa fuel p l h σ').2.2 = σ') ∧
      (∀ (aa : Trav) (ad : Addr) (l : List Label) (ps : List (Label × Option Trav))
        (h : List Addr) (σ' : Heap),
        (traversePublishPathsH d aa fuel ad l ps h σ').2.2 = σ') := by
    intro fuel
    induction fuel with
    | zero =>
      constructor
      · intro aa p l h σ'
        cases p <;> simp [traversePublishH]
      · intro aa ad l ps h σ'
        induction ps generalizing h with
        | nil => simp [traversePublishPathsH]
        | cons pr rest ihps =>
          obtain ⟨lbl, ot⟩ := pr
          simp only [traversePublishPathsH]
          rw [show (traversePublishH d (ot.getD aa) 0 (FetchChildH σ' (some ad) lbl)
              (l ++ [lbl]) h σ').2.2 = σ' from by
            cases FetchChildH σ' (some ad) lbl <;> simp [traversePublishH]]
          exact ihps _
    | succ k ih =>
      have hps : ∀ (aa : Trav) (ad : Addr) (l : List Label)
          (ps : List (Label × Option Trav)) (h : List Addr) (σ' : Heap),
          (traversePublishPathsH d aa (k + 1) ad l ps h σ').2.2 = σ' := by
        intro aa ad l ps
        induction ps with
        | nil =>
          intro h σ'
          simp [traversePublishPathsH]
        | cons pr rest ihps =>
          intro h σ'
          obtain ⟨lbl, ot⟩ := pr
          simp only [traversePublishPathsH]
          rw [show (traversePublishH d (ot.getD aa) (k + 1) (FetchChildH σ' (some ad) lbl)
              (l ++ [lbl]) h σ').2.2 = σ' from by
            cases hp : FetchChildH σ' (some ad) lbl with
            | none => simp [traversePublishH]
            | some ad' =>
              simp only [traversePublishH]
              exact ih.2 _ _ _ _ _ _]
          exact ihps _ _
      constructor
      · intro aa p l h σ'
        cases p with
        | none => simp [traversePublishH]
        | some ad =>
          simp only [traversePublishH]
          exact ih.2 _ _ _ _ _ _
      · exact hps
  exact (main fuel).1 a (some root) [] [] σ

/-! ### Witnesses for the publish claims -/

theorem Publish_rootOneSub_eq :
    Publish rootOneSub 0 travStop = ([Event.write [] ⟨7, 5⟩], [[]]) := by
  simp [Publish, traversePublish, traversePublishPaths, travStop, Trav.run, emitNode,
    rootOneSub, Node.subscriptions, Node.children, alookup]

/-- Witness for the at-most-once claim: the one-subscription trie and the
stop-at-root traverser. -/
theorem publish_at_most_once_witness :
    idCountTree rootOneSub 5 ≤ 1 ∧
    deliveryCount (Publish rootOneSub 0 travStop).1 5 ≤ 1 :=
  ⟨by simp [idCountTree, allPathNodes, rootOneSub, idCountNode, Node.subscriptions,
      Node.children],
   publish_at_most_once_per_subscription rootOneSub 0 travStop 5
    (by simp [idCountTree, allPathNodes, rootOneSub, idCountNode, Node.subscriptions,
      Node.children])⟩

/-- Witness for the bucket-delivery claim, at the root bucket of the
one-subscription trie. -/
theorem publish_bucket_delivery_witness :
    ((rootOneSub.subscriptions.map Prod.fst).Nodup) ∧
    nodeAt rootOneSub [] = some rootOneSub ∧
    ([] ∈ (Publish rootOneSub 0 travStop).2) ∧
    (("", [(⟨7, 5⟩ : Envelope)]) ∈ rootOneSub.subscriptions) ∧
    ((("" : Label) = "" →
      (Publish rootOneSub 0 travStop).1.filter (isWriteAt []) =
        [(⟨7, 5⟩ : Envelope)].map (Event.write [])) ∧
     (("" : Label) ≠ "" →
      (Publish rootOneSub 0 travStop).1.filter (isShardAt [] "") =
        [Event.shard [] "" [⟨7, 5⟩]]) ∧
     (∀ rv : Nat, [(⟨7, 5⟩ : Envelope)] ≠ [] →
        ∃ e, RandShardingWrite rv [⟨7, 5⟩] = some e ∧ e ∈ [(⟨7, 5⟩ : Envelope)])) :=
  ⟨by decide, rfl, by rw [Publish_rootOneSub_eq]; simp, by decide,
   publish_bucket_delivery 0 travStop (by decide) rfl
     (by rw [Publish_rootOneSub_eq]; simp) (by decide)⟩

/-- Witness for the non-empty-dispatch claim. -/
theorem publish_never_dispatches_empty_witness :
    bucketsNEB rootOneSub = true ∧
    ((∀ e ∈ (Publish rootOneSub 0 travStop).1, ∀ p sid es,
        e = Event.shard p sid es → es ≠ []) ∧
     (∀ (p : List Label) (s : Subscriber) (sid : Label) (rv : Id),
        bucketsNEB (Subscribe rootOneSub p s sid rv) = true) ∧
     (∀ (p : List Label) (i : Id) (t' : Node),
        cleanupSubscriptionTree rootOneSub i p = some t' → bucketsNEB t' = true) ∧
     (∀ (rv : Nat) (es : List Envelope), es ≠ [] → (RandShardingWrite rv es).isSome)) :=
  ⟨by simp [bucketsNEB, allNodesB, allPathNodes, rootOneSub, nodeBucketsNE,
      Node.subscriptions, Node.children],
   publish_never_dispatches_empty rootOneSub 0 travStop
    (by simp [bucketsNEB, allNodesB, allPathNodes, rootOneSub, nodeBucketsNE,
      Node.subscriptions, Node.children])⟩

end PubSub
